import Mathlib

/-
  Verification development for the Creating_Search_Equation repository.

  The definitions below are a shallow embedding of the JavaScript source:
    - js/core/expr-node.js      (AST node classes, logical-form rendering, JSON)
    - js/core/block.js          (blocks, the translation engine, final renderer)
    - js/services/expression-service.js (classification-definition validator)
    - js/parser/lexer.js, js/parser/parser.js, js/parser/token.js

  Modelling conventions:
    - JS strings are Lean String; JS null/undefined for an optional string is
      Option String; JS truthiness of a string s is (s ≠ "").
    - Functions that recurse through the block repository or through a parser
      loop take an explicit fuel argument modelling the JS call stack /
      iteration budget; fuel 0 returns the neutral value.  Every theorem is
      stated so that the fuel of a node and the fuel of its children match the
      call structure of the source exactly.
    - JS Set insertion order (used for classification codes) is modelled by
      ordered lists with an insert-if-absent operation.
-/

namespace CSE

/-- Whitespace characters: the set skipped by js/parser/lexer.js
skipWhitespace (space, tab, CR, LF); also used to model String.trim. -/
def isWSChar (c : Char) : Bool :=
  c = ' ' || c = '\t' || c = '\r' || c = '\n'

/-- Trim whitespace from both ends of a character list. -/
def jsTrimL (l : List Char) : List Char :=
  ((l.dropWhile isWSChar).reverse.dropWhile isWSChar).reverse

/-- Model of JS String.prototype.trim. -/
def jsTrim (s : String) : String := String.mk (jsTrimL s.data)

/-- Model of the JS idiom (a || b) on strings: a if truthy else b. -/
def jsOrStr (a b : String) : String := if a = "" then b else a

/-- The AST node family of js/core/expr-node.js:
WordTokenNode, BlockRefNode, LogicalNode (op "+" or "*", ordered children),
ProximityNode (mode "NNn" or "NNc", k, two children) and
SimultaneousProximityNode (mode always "NNn", k, children list).
op and mode are kept as strings, as in the source. -/
inductive ExprNode where
  | word (token : String)
  | blockRef (blockId : String)
  | logical (op : String) (children : List ExprNode)
  | prox (mode : String) (k : Nat) (left right : ExprNode)
  | simulProx (k : Nat) (children : List ExprNode)

mutual

/-- ExprNode.renderLogical (context-free form, as called by the translation
fallbacks): a word renders as its token, a block reference as its id, a
logical node joins child renders with " op " (empty string for no children),
a proximity node renders as "left,k<n|c>,right", a simultaneous proximity
node as "{a,b,c},kn" (braces written with escapes). -/
def renderLogical : ExprNode → String
  | .word t => t
  | .blockRef id => id
  | .logical op cs =>
      match cs with
      | [] => ""
      | _ => String.intercalate (" " ++ op ++ " ") (renderLogicalList cs)
  | .prox mode k l r =>
      renderLogical l ++ "," ++ toString k ++ (if mode = "NNc" then "c" else "n")
        ++ "," ++ renderLogical r
  | .simulProx k cs =>
      "\x7b" ++ String.intercalate "," (renderLogicalList cs) ++ "\x7d,"
        ++ toString k ++ "n"

/-- Logical-form renders of a list of children, in order. -/
def renderLogicalList : List ExprNode → List String
  | [] => []
  | c :: cs => renderLogical c :: renderLogicalList cs

end

/-- The blocks a resolution context can return (js/core/block.js), with the
fields the translation engine reads: a WordBlock's token and queryText, a
ClassBlock's token, codes, classificationExpr, an EquationBlock's AST root. -/
inductive Block where
  | WB (token queryText : String)
  | CB (token : String) (codes : List String)
      (classificationExpr searchExpr : String)
  | EB (root : Option ExprNode)

/-- A block repository viewed through get(id) (js/core/block-repository.js). -/
abbrev Repo := String → Option Block

/-- FieldParts, the intermediate value of the translation engine
(js/core/block.js): w is the word expression (without /TX) or null,
c is the list of classification expressions. -/
structure FieldParts where
  w : Option String
  c : List String
deriving DecidableEq, Repr

/-- The empty FieldParts value (w: null, c: []). -/
def emptyFP : FieldParts := ⟨none, []⟩

/-- JS falsiness of an optional string: null or "". -/
def optWFalsy : Option String → Bool
  | none => true
  | some s => s = ""

/-- The source idiom (p.w && p.w.trim().length > 0 ? p.w.trim() : null),
used by combineFieldPartsProduct, combineFieldPartsOr and renderFieldParts. -/
def effWord (p : FieldParts) : Option String :=
  match p.w with
  | none => none
  | some s => if jsTrim s = "" then none else some (jsTrim s)

/-- combineFieldPartsProduct (js/core/block.js): word parts are folded into
"(acc)*(next)" nesting, classification lists are concatenated in order.
(Appending p.c unconditionally equals the source's push guarded by
p.c.length > 0, since appending [] is a no-op.) -/
def combineFieldPartsProduct (list : List FieldParts) : FieldParts :=
  let r := list.foldl
    (fun (acc : Option String × List String) p =>
      let w := match effWord p with
        | none => acc.1
        | some t =>
          match acc.1 with
          | none => some t
          | some wAcc => some ("(" ++ wAcc ++ ")*(" ++ t ++ ")")
      (w, acc.2 ++ p.c))
    (none, [])
  ⟨r.1, r.2⟩

/-- The per-branch type classification of combineFieldPartsOr and
EquationBlock.renderQuery: word / class / mixed / empty. -/
inductive PType where
  | word | cls | mixed | empty
deriving DecidableEq, Repr

/-- hasWord/hasClass classification of one FieldParts value
(hasWord is the truthy-and-nonblank test, hasClass is c nonempty). -/
def partType (p : FieldParts) : PType :=
  let hasWord := (effWord p).isSome
  let hasClass := !p.c.isEmpty
  if hasWord && hasClass then .mixed
  else if hasWord then .word
  else if hasClass then .cls
  else .empty

/-- combineFieldPartsOr (js/core/block.js).  Mixed branches, or word and
class branches together, fall back to the node's logical form as an opaque
word factor; word-only branches are OR-joined with each term parenthesized;
class-only branches merge into one parenthesized classification expression.
The node argument is the OR node itself, used for the fallback rendering. -/
def combineFieldPartsOr (list : List FieldParts) (node : ExprNode) : FieldParts :=
  let hasMixed := list.any (fun p => partType p == PType.mixed)
  let hasWord := list.any (fun p => partType p == PType.word)
  let hasCls := list.any (fun p => partType p == PType.cls)
  if hasMixed || (hasWord && hasCls) then
    let logical := renderLogical node
    if logical = "" then emptyFP else ⟨some logical, []⟩
  else if hasWord then
    let terms := (list.filterMap effWord).map (fun w => "(" ++ w ++ ")")
    if terms = [] then emptyFP
    else ⟨some (String.intercalate "+" terms), []⟩
  else if hasCls then
    let branchExprs := (list.filter (fun p => !p.c.isEmpty)).map
      (fun p => String.intercalate "+" p.c)
    if branchExprs = [] then emptyFP
    else ⟨none, ["(" ++ String.intercalate "+" branchExprs ++ ")"]⟩
  else emptyFP

mutual

/-- One structural level of translateExprToFieldParts (js/core/block.js).
recurEB is the continuation used when a blockRef resolves to an
EquationBlock: the source re-translates the stored AST root there. -/
def translateNode (repo : Option Repo) (recurEB : ExprNode → FieldParts) :
    ExprNode → FieldParts
  | .word t => if t = "" then emptyFP else ⟨some t, []⟩
  | .blockRef id =>
      match repo with
      | none => emptyFP
      | some ρ =>
        match ρ id with
        | none => emptyFP
        | some (.WB token queryText) =>
            let w := jsTrim (jsOrStr queryText token)
            if w = "" then emptyFP else ⟨some w, []⟩
        | some (.CB _ codes classificationExpr _) =>
            let t := if classificationExpr = "" then "" else jsTrim classificationExpr
            let cls := if t ≠ "" then t
              else if codes ≠ [] then "(" ++ String.intercalate "+" codes ++ ")"
              else ""
            if cls = "" then emptyFP else ⟨none, [cls]⟩
        | some (.EB root) =>
            match root with
            | none => emptyFP
            | some r => recurEB r
  | .logical op children =>
      let list := translateNodeList repo recurEB children
      if list.isEmpty then emptyFP
      else if op = "*" then combineFieldPartsProduct list
      else if op = "+" then combineFieldPartsOr list (.logical op children)
      else emptyFP
  | .prox mode k left right =>
      let l := translateNode repo recurEB left
      let r := translateNode repo recurEB right
      if optWFalsy l.w || optWFalsy r.w || !l.c.isEmpty || !r.c.isEmpty then
        ⟨some (renderLogical (.prox mode k left right)), []⟩
      else
        let modeStr := if mode = "NNc" then "c" else "n"
        ⟨some ((l.w.getD "") ++ "," ++ toString k ++ modeStr ++ ","
          ++ (r.w.getD "")), []⟩
  | .simulProx k children =>
      let parts := translateNodeList repo recurEB children
      if parts.any (fun p => optWFalsy p.w || !p.c.isEmpty) then
        ⟨some (renderLogical (.simulProx k children)), []⟩
      else
        let inner := String.intercalate ","
          ((parts.filterMap (fun p => p.w)).filter (fun s => s ≠ ""))
        ⟨some ("\x7b" ++ inner ++ "\x7d," ++ toString k ++ "n"), []⟩

/-- Translations of a list of children, in order. -/
def translateNodeList (repo : Option Repo) (recurEB : ExprNode → FieldParts) :
    List ExprNode → List FieldParts
  | [] => []
  | c :: cs => translateNode repo recurEB c :: translateNodeList repo recurEB cs

end

/-- translateExprToFieldParts (js/core/block.js).  The source recurses both
structurally through the AST and, on an EquationBlock reference, through the
repository; the fuel argument bounds only the repository indirection depth
(the source diverges on a cyclic repository), and fuel 0 yields the empty
FieldParts. -/
def translate : Nat → Option Repo → ExprNode → FieldParts
  | 0, _, _ => emptyFP
  | Nat.succ fuel, repo, node => translateNode repo (translate fuel repo) node

/-- renderFieldParts (js/core/block.js): the word segment is suffixed /TX,
each classification expression F becomes [F/CP+F/FI], segments joined by *. -/
def renderFieldParts (parts : FieldParts) : String :=
  let w := effWord parts
  let cList := (parts.c.map jsTrim).filter (fun s => s ≠ "")
  let segments := match w with
    | none => ([] : List String)
    | some w' => [w' ++ "/TX"]
  if cList ≠ [] then
    let classTerms := cList.map (fun F => "[" ++ F ++ "/CP+" ++ F ++ "/FI]")
    match segments with
    | s :: _ => s ++ "*" ++ String.intercalate "*" classTerms
    | [] => String.intercalate "*" classTerms
  else
    match segments with
    | s :: _ => s
    | [] => ""

/-- EquationBlock.renderQuery (js/core/block.js): a top-level OR node gets
the word-only / class-only special treatment, everything else is translated
to FieldParts and rendered. -/
def renderQuery (fuel : Nat) (root : Option ExprNode) (repo : Option Repo) :
    String :=
  match root with
  | none => ""
  | some (.logical op children) =>
      if op ≠ "+" then
        renderFieldParts (translate fuel repo (.logical op children))
      else if children.isEmpty then ""
      else
        let partList := children.map (translate fuel repo)
        let hasMixed := partList.any (fun p => partType p == PType.mixed)
        let hasWord := partList.any (fun p => partType p == PType.word)
        let hasCls := partList.any (fun p => partType p == PType.cls)
        if hasMixed || (hasWord && hasCls) then
          renderFieldParts (translate fuel repo (.logical op children))
        else if hasWord then
          let terms := (partList.filterMap effWord).map (fun w => w ++ "/TX")
          if terms = [] then ""
          else "[" ++ String.intercalate "+" terms ++ "]"
        else if hasCls then
          let branchExprs := (partList.filter (fun p => !p.c.isEmpty)).map
            (fun p => String.intercalate "+" p.c)
          if branchExprs = [] then ""
          else
            let classificationExpr :=
              "(" ++ String.intercalate "+" branchExprs ++ ")"
            "[" ++ classificationExpr ++ "/CP+" ++ classificationExpr ++ "/FI]"
        else ""
  | some root => renderFieldParts (translate fuel repo root)

/-- ClassBlock (js/core/block.js): token, code list and the two derived
strings recalculated by _recalcExpressions. -/
structure ClassBlock where
  token : String
  codes : List String
  classificationExpr : String
  searchExpr : String
deriving DecidableEq, Repr

/-- ClassBlock._recalcExpressions: derive (classificationExpr, searchExpr)
from the code list. -/
def recalcExpressions (codes : List String) : String × String :=
  if codes.isEmpty then ("", "")
  else
    let inner := String.intercalate "+" codes
    let ce := "(" ++ inner ++ ")"
    (ce, "[" ++ ce ++ "/CP+" ++ ce ++ "/FI]")

/-- The ClassBlock constructor: stores the codes and recalculates the
derived expressions. -/
def ClassBlock.make (token : String) (codes : List String) : ClassBlock :=
  let r := recalcExpressions codes
  ⟨token, codes, r.1, r.2⟩

/-- ClassBlock.setCodes: replace the codes and recalculate. -/
def ClassBlock.setCodes (cb : ClassBlock) (codes : List String) : ClassBlock :=
  let r := recalcExpressions codes
  ⟨cb.token, codes, r.1, r.2⟩

/-- Remove every parenthesis character from a string; used to compare word
factors up to the bracket nesting the product combiner inserts. -/
def eraseParens (s : String) : String :=
  String.mk (s.data.filter (fun c => c ≠ '(' && c ≠ ')'))

/-- The word part of a two-element product: how combineFieldPartsProduct
combines two effective word values (nothing, keep; two, nest as
"(acc)*(next)"). -/
def pairW (x y : Option String) : Option String :=
  match y with
  | none => x
  | some t =>
    match x with
    | none => some t
    | some t1 => some ("(" ++ t1 ++ ")*(" ++ t ++ ")")

/- ===================  AST JSON (js/core/expr-node.js)  =================== -/

/-- A small JSON value model: strings, numbers (only non-negative integers
occur here), arrays and objects (ordered field lists). -/
inductive JVal where
  | str (s : String)
  | num (n : Nat)
  | arr (elems : List JVal)
  | obj (fields : List (String × JVal))

/-- JS property read obj[key]: the last binding of the key wins, as in a JS
object literal with duplicate keys. -/
def lookupField (fields : List (String × JVal)) (key : String) : Option JVal :=
  (fields.reverse.find? (fun f => f.1 = key)).map (fun f => f.2)

/-- Read a field expected to hold a string; a missing or non-string value is
coerced to "" (the source passes the raw value through to the node
constructor; only string-valued fields are representable in the AST model). -/
def strField (fields : List (String × JVal)) (key : String) : String :=
  match lookupField fields key with
  | some (.str s) => s
  | _ => ""

/-- Read a field expected to hold a number, coercing a missing or non-number
value to 0 (same convention as strField). -/
def natField (fields : List (String × JVal)) (key : String) : Nat :=
  match lookupField fields key with
  | some (.num n) => n
  | _ => 0

mutual

/-- exprNodeToJSON (js/core/expr-node.js): each variant serializes as an
object with its type tag first; a SimultaneousProximityNode writes its
constant mode "NNn". -/
def exprNodeToJSON : ExprNode → JVal
  | .word t => .obj [("type", .str "word"), ("token", .str t)]
  | .blockRef id => .obj [("type", .str "blockRef"), ("blockId", .str id)]
  | .logical op cs =>
      .obj [("type", .str "logical"), ("op", .str op),
        ("children", .arr (exprNodeListToJSON cs))]
  | .prox mode k l r =>
      .obj [("type", .str "proximity"), ("mode", .str mode), ("k", .num k),
        ("children", .arr [exprNodeToJSON l, exprNodeToJSON r])]
  | .simulProx k cs =>
      .obj [("type", .str "simulProx"), ("mode", .str "NNn"), ("k", .num k),
        ("children", .arr (exprNodeListToJSON cs))]

/-- JSON serializations of a list of children, in order. -/
def exprNodeListToJSON : List ExprNode → List JVal
  | [] => []
  | c :: cs => exprNodeToJSON c :: exprNodeListToJSON cs

end

/-- The children list of an object, or [] when the field is missing or not
an array (the source's Array.isArray(obj.children) ? obj.children : []). -/
def childrenArr (fields : List (String × JVal)) : List JVal :=
  match lookupField fields "children" with
  | some (.arr l) => l
  | _ => []

/-- Deserialize every element of a list, propagating the first error. -/
def exceptMapList (f : JVal → Except String ExprNode) :
    List JVal → Except String (List ExprNode)
  | [] => .ok []
  | j :: js => do
      let e ← f j
      let es ← exceptMapList f js
      .ok (e :: es)

/-- exprNodeFromJSON (js/core/expr-node.js).  Fuel models the recursion
depth; fuel 0 gives the same error a non-object input gives.  The switch on
obj.type is mirrored by the if chain; an unknown tag (or a missing or
non-string tag, which JS stringifies into the message) raises the
unknown-type error; a non-object raises "Invalid AST JSON", as does a
proximity object without two children (indexing into a missing array). -/
def exprNodeFromJSON : Nat → JVal → Except String ExprNode
  | 0, _ => .error "Invalid AST JSON"
  | Nat.succ fuel, j =>
    match j with
    | .obj fields =>
      match lookupField fields "type" with
      | some (.str t) =>
        if t = "word" then .ok (.word (strField fields "token"))
        else if t = "blockRef" then .ok (.blockRef (strField fields "blockId"))
        else if t = "logical" then do
          let cs ← exceptMapList (exprNodeFromJSON fuel) (childrenArr fields)
          .ok (.logical (strField fields "op") cs)
        else if t = "proximity" then
          match lookupField fields "children" with
          | some (.arr (c0 :: c1 :: _)) => do
              let e0 ← exprNodeFromJSON fuel c0
              let e1 ← exprNodeFromJSON fuel c1
              .ok (.prox (strField fields "mode") (natField fields "k") e0 e1)
          | _ => .error "Invalid AST JSON"
        else if t = "simulProx" then do
          let cs ← exceptMapList (exprNodeFromJSON fuel) (childrenArr fields)
          .ok (.simulProx (natField fields "k") cs)
        else .error ("Unknown AST node type: " ++ t)
      | _ => .error "Unknown AST node type: (not a string)"
    | _ => .error "Invalid AST JSON"

/-- The five type tags the source emits and accepts. -/
def allowedTag (t : String) : Bool :=
  t = "word" || t = "blockRef" || t = "logical" || t = "proximity"
    || t = "simulProx"

/-- Whether an object's type field holds an allowed tag. -/
def objTagAllowed (fields : List (String × JVal)) : Bool :=
  match lookupField fields "type" with
  | some (.str t) => allowedTag t
  | _ => false

/-- Shape check for one serialized node: an object whose type tag is
allowed, with logical carrying op and a children array, proximity carrying
mode, k and a 2-element children array, simulProx carrying mode, k and a
3-element children array. -/
def shapeOKTop (j : JVal) : Bool :=
  match j with
  | .obj fields =>
    match lookupField fields "type" with
    | some (.str t) =>
      if t = "word" || t = "blockRef" then true
      else if t = "logical" then
        (lookupField fields "op").isSome
          && (match lookupField fields "children" with
              | some (.arr _) => true
              | _ => false)
      else if t = "proximity" then
        (lookupField fields "mode").isSome && (lookupField fields "k").isSome
          && (match lookupField fields "children" with
              | some (.arr l) => l.length = 2
              | _ => false)
      else if t = "simulProx" then
        (lookupField fields "mode").isSome && (lookupField fields "k").isSome
          && (match lookupField fields "children" with
              | some (.arr l) => l.length = 3
              | _ => false)
      else false
    | _ => false
  | _ => false

/-- Arity condition at the node itself: a simultaneous proximity node holds
exactly 3 children (the parser only builds such nodes). -/
def topSimul3 (node : ExprNode) : Bool :=
  match node with
  | .simulProx _ cs => cs.length = 3
  | _ => true

/- ==========  classification-definition validator (expression-service)  ========== -/

/-- JS Set.add: insert at the end if not already present. -/
def addCode (codes : List String) (t : String) : List String :=
  if t ∈ codes then codes else codes ++ [t]

mutual

/-- The walk of ExpressionService._extractCodesFromClassExpr: word tokens
are trimmed and the non-blank ones collected; a logical node must use "+"
and recurses; every other node kind raises the descriptive error. -/
def walkClassExpr : List String → ExprNode → Except String (List String)
  | codes, .word t =>
      let tok := jsTrim t
      .ok (if tok = "" then codes else addCode codes tok)
  | codes, .logical op children =>
      if op ≠ "+" then
        .error "分類行には \"*\" や \"-\" ではなく \"+\" のみ使用できます"
      else walkClassExprList codes children
  | _, .blockRef _ => .error "分類行に近傍や式ブロックを含めることはできません"
  | _, .prox _ _ _ _ => .error "分類行に近傍や式ブロックを含めることはできません"
  | _, .simulProx _ _ => .error "分類行に近傍や式ブロックを含めることはできません"

/-- Walk every child in order, threading the accumulated codes. -/
def walkClassExprList : List String → List ExprNode → Except String (List String)
  | codes, [] => .ok codes
  | codes, c :: cs => do
      let codes1 ← walkClassExpr codes c
      walkClassExprList codes1 cs

end

/-- ExpressionService._extractCodesFromClassExpr: walk the tree, then fail
when no code was collected. -/
def extractCodesFromClassExpr (expr : ExprNode) : Except String (List String) :=
  match walkClassExpr [] expr with
  | .error e => .error e
  | .ok codes =>
      if codes.isEmpty then .error "分類行から分類コードを抽出できませんでした"
      else .ok codes

mutual

/-- Whether the tree contains a node the claim forbids in a classification
definition: a "*" logical node, a two- or three-operand proximity node, or
a block reference. -/
def containsForbidden : ExprNode → Bool
  | .word _ => false
  | .blockRef _ => true
  | .logical op cs => (op == "*") || anyForbidden cs
  | .prox _ _ _ _ => true
  | .simulProx _ _ => true

/-- Any child contains forbidden content. -/
def anyForbidden : List ExprNode → Bool
  | [] => false
  | c :: cs => containsForbidden c || anyForbidden cs

end

mutual

/-- The trees the walk accepts: word leaves combined only by "+". -/
def cleanExpr : ExprNode → Bool
  | .word _ => true
  | .logical op cs => (op == "+") && allClean cs
  | _ => false

/-- All children are clean. -/
def allClean : List ExprNode → Bool
  | [] => true
  | c :: cs => cleanExpr c && allClean cs

end

mutual

/-- Some word leaf has a non-blank (after trimming) token. -/
def hasNonBlankLeaf : ExprNode → Bool
  | .word t => jsTrim t ≠ ""
  | .logical _ cs => anyNonBlankLeaf cs
  | _ => false

/-- Some child has a non-blank word leaf. -/
def anyNonBlankLeaf : List ExprNode → Bool
  | [] => false
  | c :: cs => hasNonBlankLeaf c || anyNonBlankLeaf cs

end

/- ===================  lexer (js/parser/lexer.js, token.js)  =================== -/

/-- Token kinds (js/parser/token.js TokenType). -/
inductive TokType where
  | ident | plus | star | comma | lparen | rparen | lbrace | rbrace
  | assign | field | prox | eof
deriving DecidableEq, Repr

/-- A token: kind and raw text (js/parser/token.js Token). -/
structure Tok where
  type : TokType
  text : String
deriving DecidableEq, Repr

/-- The single-character operator tokens of the lexer: + * , ( ) { } =. -/
def isSingleCharTok (c : Char) : Bool :=
  c = '+' || c = '*' || c = ',' || c = '(' || c = ')' || c = '\x7b'
    || c = '\x7d' || c = '='

/-- Lexer.isSeparator: whitespace or a single-character operator. -/
def isSeparatorChar (c : Char) : Bool :=
  isWSChar c || isSingleCharTok c

/-- Lexer.isDigit. -/
def isDigitChar (c : Char) : Bool := '0' ≤ c && c ≤ '9'

/-- Lexer.isAlpha (ASCII letters only). -/
def isAlphaChar (c : Char) : Bool :=
  ('a' ≤ c && c ≤ 'z') || ('A' ≤ c && c ≤ 'Z')

/-- Lexer.isFieldBoundary on the previous non-whitespace character
(none models the start of the line). -/
def isFieldBoundary : Option Char → Bool
  | none => true
  | some c => isWSChar c || isSingleCharTok c

/-- The token for one single-character operator. -/
def singleCharTok (c : Char) : Tok :=
  if c = '+' then ⟨.plus, "+"⟩
  else if c = '*' then ⟨.star, "*"⟩
  else if c = ',' then ⟨.comma, ","⟩
  else if c = '(' then ⟨.lparen, "("⟩
  else if c = ')' then ⟨.rparen, ")"⟩
  else if c = '\x7b' then ⟨.lbrace, "\x7b"⟩
  else if c = '\x7d' then ⟨.rbrace, "\x7d"⟩
  else ⟨.assign, "="⟩

/-- Lexer.nextToken.  The lexer state is the remaining input plus the last
non-whitespace character already consumed (what peekPrevNonWhitespaceChar
reads); the result is the token, the new last character and the remaining
input.  Whitespace is skipped first; then single-character tokens, the
field-or-identifier decision at '/', the proximity-or-identifier decision at
a digit, and the identifier fallback, exactly as in the source. -/
def nextToken (lastNW : Option Char) (input : List Char) :
    Tok × Option Char × List Char :=
  match input.dropWhile isWSChar with
  | [] => (⟨.eof, ""⟩, lastNW, [])
  | c :: cs =>
    if isSingleCharTok c then (singleCharTok c, some c, cs)
    else if c = '/' then
      if isFieldBoundary lastNW
          && (match cs.head? with
              | some d => isAlphaChar d
              | none => false) then
        if String.mk ('/' :: (cs.takeWhile isAlphaChar).map Char.toUpper) = "/TX"
            || String.mk ('/' :: (cs.takeWhile isAlphaChar).map Char.toUpper) = "/FI"
            || String.mk ('/' :: (cs.takeWhile isAlphaChar).map Char.toUpper) = "/CP" then
          (⟨.field, String.mk ('/' :: (cs.takeWhile isAlphaChar).map Char.toUpper)⟩,
            ('/' :: cs.takeWhile isAlphaChar).getLast?.or lastNW,
            cs.dropWhile isAlphaChar)
        else
          (⟨.ident, String.mk ('/' :: cs.takeWhile isAlphaChar)⟩,
            ('/' :: cs.takeWhile isAlphaChar).getLast?.or lastNW,
            cs.dropWhile isAlphaChar)
      else
        (⟨.ident, String.mk ((c :: cs).takeWhile (fun ch => !isSeparatorChar ch))⟩,
          ((c :: cs).takeWhile (fun ch => !isSeparatorChar ch)).getLast?.or lastNW,
          (c :: cs).dropWhile (fun ch => !isSeparatorChar ch))
    else if isDigitChar c then
      match (c :: cs).dropWhile isDigitChar with
      | d :: ds =>
        if d = 'n' || d = 'N' || d = 'c' || d = 'C' then
          (⟨.prox, String.mk ((c :: cs).takeWhile isDigitChar ++ [d])⟩, some d, ds)
        else
          (⟨.ident, String.mk ((c :: cs).takeWhile isDigitChar)⟩,
            ((c :: cs).takeWhile isDigitChar).getLast?.or lastNW,
            (c :: cs).dropWhile isDigitChar)
      | [] =>
          (⟨.ident, String.mk ((c :: cs).takeWhile isDigitChar)⟩,
            ((c :: cs).takeWhile isDigitChar).getLast?.or lastNW, [])
    else
      (⟨.ident, String.mk ((c :: cs).takeWhile (fun ch => !isSeparatorChar ch))⟩,
        ((c :: cs).takeWhile (fun ch => !isSeparatorChar ch)).getLast?.or lastNW,
        (c :: cs).dropWhile (fun ch => !isSeparatorChar ch))

/-- The token-collection loop of the Parser constructor: call nextToken
until (and including) the end-of-input token.  Fuel bounds the number of
calls; input.length + 1 always suffices (each non-eof token consumes at
least one character). -/
def tokenizeGo : Nat → Option Char → List Char → List Tok
  | 0, _, _ => []
  | Nat.succ fuel, lastNW, input =>
    if (nextToken lastNW input).1.type = .eof then [(nextToken lastNW input).1]
    else (nextToken lastNW input).1
      :: tokenizeGo fuel (nextToken lastNW input).2.1 (nextToken lastNW input).2.2

/-- Tokenize one input line. -/
def tokenizeLine (s : String) : List Tok :=
  tokenizeGo (s.data.length + 1) none s.data

/- ============  recursive-descent parser (js/parser/parser.js)  ============ -/

/-- parseInt on a run of decimal digits. -/
def digitsToNat (l : List Char) : Nat :=
  l.foldl (fun n c => n * 10 + (c.toNat - '0'.toNat)) 0

/-- Parser.parseProxSpec: the pattern digits+('n'|'c'), case-insensitive,
anchored at both ends; yields the mode string and the count. -/
def parseProxSpec (text : String) : Except String (String × Nat) :=
  match text.data.dropWhile isDigitChar with
  | [d] =>
    if text.data.takeWhile isDigitChar ≠ [] && (d = 'n' || d = 'N') then
      .ok ("NNn", digitsToNat (text.data.takeWhile isDigitChar))
    else if text.data.takeWhile isDigitChar ≠ [] && (d = 'c' || d = 'C') then
      .ok ("NNc", digitsToNat (text.data.takeWhile isDigitChar))
    else .error ("Invalid proximity spec: " ++ text)
  | _ => .error ("Invalid proximity spec: " ++ text)

/-- Parser.consume on a punctuation token: check the head token's type and
drop it, else raise the given message. -/
def expectTok (tt : TokType) (msg : String) : List Tok → Except String (List Tok)
  | t :: ts => if t.type = tt then .ok ts else .error msg
  | [] => .error msg

mutual

/-- Parser.parseOrExpr: and_expr ('+' and_expr)*, building left-associated
LogicalNode('+') pairs.  All parser functions take fuel modelling the JS
call stack (the source has no bound; any fuel at least the nesting depth of
the stream gives the source's result) and mirror thrown exceptions as
Except.error. -/
def parseOrExpr : Nat → List Tok → Except String (ExprNode × List Tok)
  | 0, _ => .error "parse fuel exhausted"
  | Nat.succ fuel, ts =>
    match parseAndExpr fuel ts with
    | .error e => .error e
    | .ok (left, ts1) => parseOrLoop fuel left ts1

/-- The while-loop of parseOrExpr. -/
def parseOrLoop : Nat → ExprNode → List Tok → Except String (ExprNode × List Tok)
  | 0, _, _ => .error "parse fuel exhausted"
  | Nat.succ fuel, node, ts =>
    match ts with
    | t :: ts' =>
      if t.type = .plus then
        match parseAndExpr fuel ts' with
        | .error e => .error e
        | .ok (right, ts2) => parseOrLoop fuel (.logical "+" [node, right]) ts2
      else .ok (node, ts)
    | [] => .ok (node, ts)

/-- Parser.parseAndExpr: prox_expr ('*' prox_expr)*. -/
def parseAndExpr : Nat → List Tok → Except String (ExprNode × List Tok)
  | 0, _ => .error "parse fuel exhausted"
  | Nat.succ fuel, ts =>
    match parseProxExpr fuel ts with
    | .error e => .error e
    | .ok (left, ts1) => parseAndLoop fuel left ts1

/-- The while-loop of parseAndExpr. -/
def parseAndLoop : Nat → ExprNode → List Tok → Except String (ExprNode × List Tok)
  | 0, _, _ => .error "parse fuel exhausted"
  | Nat.succ fuel, node, ts =>
    match ts with
    | t :: ts' =>
      if t.type = .star then
        match parseProxExpr fuel ts' with
        | .error e => .error e
        | .ok (right, ts2) => parseAndLoop fuel (.logical "*" [node, right]) ts2
      else .ok (node, ts)
    | [] => .ok (node, ts)

/-- Parser.parseProxExpr: a primary, then optionally "," PROX "," primary
(the guard is current = COMMA with a PROX lookahead); the proximity spec is
decoded after the right operand is parsed, as in the source. -/
def parseProxExpr : Nat → List Tok → Except String (ExprNode × List Tok)
  | 0, _ => .error "parse fuel exhausted"
  | Nat.succ fuel, ts =>
    match parsePrimary fuel ts with
    | .error e => .error e
    | .ok (left, ts1) =>
      match ts1 with
      | t1 :: t2 :: rest =>
        if t1.type = .comma && t2.type = .prox then
          match expectTok .comma
              "Expected \",\" after proximity specifier (e.g. 10n,)" rest with
          | .error e => .error e
          | .ok ts2 =>
            match parsePrimary fuel ts2 with
            | .error e => .error e
            | .ok (right, ts3) =>
              match parseProxSpec t2.text with
              | .error e => .error e
              | .ok (mode, k) => .ok (.prox mode k left right, ts3)
        else .ok (left, ts1)
      | _ => .ok (left, ts1)

/-- Parser.parsePrimary: brace form, parenthesized expression, identifier;
an end-of-input or field token raises "Unexpected end of expression". -/
def parsePrimary : Nat → List Tok → Except String (ExprNode × List Tok)
  | 0, _ => .error "parse fuel exhausted"
  | Nat.succ fuel, ts =>
    match ts with
    | t :: ts' =>
      if t.type = .lbrace then parseSimulProxPrimary fuel ts
      else if t.type = .lparen then
        match parseOrExpr fuel ts' with
        | .error e => .error e
        | .ok (e, ts2) =>
          match expectTok .rparen "Expected \")\" to close \"(\"" ts2 with
          | .error e => .error e
          | .ok ts3 => .ok (e, ts3)
      else if t.type = .ident then .ok (.word t.text, ts')
      else if t.type = .eof || t.type = .field then
        .error "Unexpected end of expression"
      else .error ("Unexpected token in primary: " ++ t.text)
    | [] => .error "Unexpected end of expression"

/-- Parser.parseSimultaneousProximityPrimary: consumes the whole
\x7bA,B,C\x7d,PROX form and rejects a sentence-distance ("c") spec. -/
def parseSimulProxPrimary : Nat → List Tok → Except String (ExprNode × List Tok)
  | 0, _ => .error "parse fuel exhausted"
  | Nat.succ fuel, ts =>
    match expectTok .lbrace
        "Expected \"\x7b\" to start simultaneous proximity" ts with
    | .error e => .error e
    | .ok ts0 =>
      match parsePrimary fuel ts0 with
      | .error e => .error e
      | .ok (first, ts1) =>
        match expectTok .comma
            "Expected \",\" after first operand in \"\x7bA,B,C\x7d\"" ts1 with
        | .error e => .error e
        | .ok ts2 =>
          match parsePrimary fuel ts2 with
          | .error e => .error e
          | .ok (second, ts3) =>
            match expectTok .comma
                "Expected \",\" after second operand in \"\x7bA,B,C\x7d\"" ts3 with
            | .error e => .error e
            | .ok ts4 =>
              match parsePrimary fuel ts4 with
              | .error e => .error e
              | .ok (third, ts5) =>
                match expectTok .rbrace
                    "Expected \"\x7d\" after third operand in \"\x7bA,B,C\x7d\"" ts5 with
                | .error e => .error e
                | .ok ts6 =>
                  match expectTok .comma
                      "Expected \",\" after \"\x7d\" in \"\x7bA,B,C\x7d,10n\"" ts6 with
                  | .error e => .error e
                  | .ok ts7 =>
                    match ts7 with
                    | t :: ts8 =>
                      if t.type = .prox then
                        match parseProxSpec t.text with
                        | .error e => .error e
                        | .ok (mode, k) =>
                          if mode ≠ "NNn" then
                            .error "Simultaneous proximity supports NNn (n) only"
                          else .ok (.simulProx k [first, second, third], ts8)
                      else .error
                        "Expected proximity spec (e.g. 10n) after \"\x7bA,B,C\x7d,\""
                    | [] => .error
                        "Expected proximity spec (e.g. 10n) after \"\x7bA,B,C\x7d,\""

end

/-- Parser.parseExpr (delegates to the OR level). -/
def parseExpr (fuel : Nat) (ts : List Tok) : Except String (ExprNode × List Tok) :=
  parseOrExpr fuel ts

/-- The part of Parser.parseLine after the optional leading name: the
expression, an optional trailing field token, then the end token. -/
def parseLineRest (fuel : Nat) (name : Option String) (ts : List Tok) :
    Except String (Option String × ExprNode × Option String) :=
  match parseExpr fuel ts with
  | .error e => .error e
  | .ok (expr, ts2) =>
    match ts2 with
    | t :: ts3 =>
      if t.type = .field then
        match ts3 with
        | t' :: _ =>
          if t'.type = .eof then .ok (name, expr, some t.text)
          else .error ("Unexpected token at end of line: " ++ t'.text)
        | [] => .ok (name, expr, some t.text)
      else if t.type = .eof then .ok (name, expr, none)
      else .error ("Unexpected token at end of line: " ++ t.text)
    | [] => .ok (name, expr, none)

/-- Parser.parseLine: [IDENT '='] expr [FIELD] END. -/
def parseLine (fuel : Nat) (ts : List Tok) :
    Except String (Option String × ExprNode × Option String) :=
  match ts with
  | t1 :: t2 :: rest =>
    if t1.type = .ident && t2.type = .assign then
      parseLineRest fuel (some t1.text) rest
    else parseLineRest fuel none ts
  | _ => parseLineRest fuel none ts

/-- Tokenize one line and parse it, as ExpressionService.parseInputLines
does per line; the fuel is generous for any stream the lexer produces. -/
def reparseLine (s : String) :
    Except String (Option String × ExprNode × Option String) :=
  parseLine (4 * (tokenizeLine s).length + 8) (tokenizeLine s)

/- ==========  flat form of pure word/logical ASTs (for the round trip)  ========== -/

/-- A plain identifier as the lexer reproduces it: non-empty, free of
whitespace and operator characters, not starting with a digit or a slash. -/
def goodIdentB (t : String) : Bool :=
  match t.data with
  | [] => false
  | c :: cs =>
      !isDigitChar c && c ≠ '/' && (c :: cs).all (fun ch => !isSeparatorChar ch)

mutual

/-- The ASTs of the round-trip claim, restricted to plain identifiers:
word leaves and "+"/"*" logical nodes with at least one child. -/
def goodAstB : ExprNode → Bool
  | .word t => goodIdentB t
  | .logical op cs =>
      (op == "+" || op == "*") && !cs.isEmpty && allGoodAst cs
  | _ => false

/-- All children satisfy goodAstB. -/
def allGoodAst : List ExprNode → Bool
  | [] => true
  | c :: cs => goodAstB c && allGoodAst cs

end

/-- The flat view of such an AST: the first identifier and the following
(operator, identifier) items, in rendering order. -/
abbrev Flat := String × List (String × String)

/-- Append a second flat behind an operator. -/
def flatApp (f : Flat) (op : String) (g : Flat) : Flat :=
  (f.1, f.2 ++ (op, g.1) :: g.2)

mutual

/-- Flatten a word/logical AST into its flat view (defaulting to an empty
flat on the shapes goodAstB excludes). -/
def flatten : ExprNode → Flat
  | .word t => (t, [])
  | .logical op cs =>
      match cs with
      | [] => ("", [])
      | c :: cs2 => flattenFold op (flatten c) cs2
  | _ => ("", [])

/-- Fold the remaining children behind the accumulated flat. -/
def flattenFold (op : String) (acc : Flat) : List ExprNode → Flat
  | [] => acc
  | c :: cs => flattenFold op (flatApp acc op (flatten c)) cs

end

/-- The rendered text of the items of a flat (the part after the first
identifier): one " op ident" group per item. -/
def renderItems : List (String × String) → String
  | [] => ""
  | (op, t) :: rs => " " ++ op ++ " " ++ t ++ renderItems rs

/-- The rendered text of a flat. -/
def renderFlat (f : Flat) : String := f.1 ++ renderItems f.2

/-- The token of one operator. -/
def opTok (op : String) : Tok :=
  if op = "+" then ⟨.plus, "+"⟩ else ⟨.star, "*"⟩

/-- The token image of the items of a flat. -/
def itemsToks : List (String × String) → List Tok
  | [] => []
  | (op, t) :: rs => opTok op :: ⟨.ident, t⟩ :: itemsToks rs

/-- Items whose operators are "+" or "*" and whose identifiers are plain. -/
def goodItemsB (rs : List (String × String)) : Bool :=
  rs.all (fun it => (it.1 == "+" || it.1 == "*") && goodIdentB it.2)

/-- A flat with a plain first identifier and good items. -/
def goodFlatB (f : Flat) : Bool :=
  goodIdentB f.1 && goodItemsB f.2

/-- The AST the parser's AND loop builds from a node followed by "* ident"
items: left-nested two-child "*" logical nodes. -/
def andFold (node : ExprNode) (ss : List (String × String)) : ExprNode :=
  ss.foldl (fun acc it => .logical "*" [acc, .word it.2]) node

/- ===================  general lemmas  =================== -/

theorem translateNodeList_eq_map (repo : Option Repo)
    (recurEB : ExprNode → FieldParts) (cs : List ExprNode) :
    translateNodeList repo recurEB cs = cs.map (translateNode repo recurEB) := by
  induction cs with
  | nil => rfl
  | cons c cs ih => simp [translateNodeList, ih]

theorem translate_succ_fun (fuel : Nat) (repo : Option Repo) :
    translateNode repo (translate fuel repo) = translate (fuel + 1) repo := rfl

theorem translate_logical (fuel : Nat) (repo : Option Repo) (op : String)
    (cs : List ExprNode) :
    translate (fuel + 1) repo (.logical op cs)
      = (let list := cs.map (translate (fuel + 1) repo)
         if list.isEmpty then emptyFP
         else if op = "*" then combineFieldPartsProduct list
         else if op = "+" then combineFieldPartsOr list (.logical op cs)
         else emptyFP) := by
  show translateNode repo (translate fuel repo) (.logical op cs) = _
  simp only [translateNode, translateNodeList_eq_map, translate_succ_fun]

theorem translate_prox (fuel : Nat) (repo : Option Repo) (mode : String)
    (k : Nat) (left right : ExprNode) :
    translate (fuel + 1) repo (.prox mode k left right)
      = (let l := translate (fuel + 1) repo left
         let r := translate (fuel + 1) repo right
         if optWFalsy l.w || optWFalsy r.w || !l.c.isEmpty || !r.c.isEmpty then
           ⟨some (renderLogical (.prox mode k left right)), []⟩
         else
           ⟨some ((l.w.getD "") ++ "," ++ toString k
             ++ (if mode = "NNc" then "c" else "n") ++ ","
             ++ (r.w.getD "")), []⟩) := rfl

theorem partType_eq_cls (p : FieldParts) :
    partType p = PType.cls ↔ effWord p = none ∧ p.c ≠ [] := by
  rcases h : effWord p with _ | t <;> rcases hc : p.c with _ | ⟨x, xs⟩ <;>
    simp [partType, h, hc]

theorem partType_eq_mixed (p : FieldParts) :
    partType p = PType.mixed ↔ (effWord p).isSome ∧ p.c ≠ [] := by
  rcases h : effWord p with _ | t <;> rcases hc : p.c with _ | ⟨x, xs⟩ <;>
    simp [partType, h, hc]

theorem partType_eq_word (p : FieldParts) :
    partType p = PType.word ↔ (effWord p).isSome ∧ p.c = [] := by
  rcases h : effWord p with _ | t <;> rcases hc : p.c with _ | ⟨x, xs⟩ <;>
    simp [partType, h, hc]

/- ===================  claim theorems  =================== -/

/-- C10 (confirmed): after construction or setCodes, a non-empty code list
c1..cn gives classificationExpr "(c1+...+cn)" and searchExpr
"[(c1+...+cn)/CP+(c1+...+cn)/FI]"; an empty code list gives "" for both. -/
theorem claim_C10 (token : String) (codes : List String) (cb : ClassBlock) :
    (codes ≠ [] →
      (ClassBlock.make token codes).classificationExpr
          = "(" ++ String.intercalate "+" codes ++ ")"
        ∧ (ClassBlock.make token codes).searchExpr
          = "[" ++ ("(" ++ String.intercalate "+" codes ++ ")") ++ "/CP+"
            ++ ("(" ++ String.intercalate "+" codes ++ ")") ++ "/FI]"
        ∧ (cb.setCodes codes).classificationExpr
          = "(" ++ String.intercalate "+" codes ++ ")"
        ∧ (cb.setCodes codes).searchExpr
          = "[" ++ ("(" ++ String.intercalate "+" codes ++ ")") ++ "/CP+"
            ++ ("(" ++ String.intercalate "+" codes ++ ")") ++ "/FI]")
    ∧ (codes = [] →
      (ClassBlock.make token codes).classificationExpr = ""
        ∧ (ClassBlock.make token codes).searchExpr = ""
        ∧ (cb.setCodes codes).classificationExpr = ""
        ∧ (cb.setCodes codes).searchExpr = "") := by
  constructor
  · intro h
    have he : codes.isEmpty = false := by
      cases codes with
      | nil => exact absurd rfl h
      | cons x xs => rfl
    simp [ClassBlock.make, ClassBlock.setCodes, recalcExpressions, he]
  · intro h
    subst h
    simp [ClassBlock.make, ClassBlock.setCodes, recalcExpressions]

/-- C10 witness: concrete construction and setCodes evaluations. -/
theorem claim_C10_witness :
    (ClassBlock.make "T" ["A", "B"]).classificationExpr = "(A+B)"
      ∧ (ClassBlock.make "T" ["A", "B"]).searchExpr = "[(A+B)/CP+(A+B)/FI]"
      ∧ ((ClassBlock.make "S" ["X"]).setCodes []).searchExpr = "" := by
  have h := claim_C10 "T" ["A", "B"] (ClassBlock.make "S" ["X"])
  have h2 := claim_C10 "T" [] (ClassBlock.make "S" ["X"])
  refine ⟨((h.1 (by decide)).1).trans (by decide),
    ((h.1 (by decide)).2.1).trans (by decide), (h2.2 rfl).2.2.2⟩

/-- C1 counterexample: a proximity node whose left operand resolves to
nothing (a dangling block reference) has no classification content on
either side, yet the translation is the opaque logical-form fallback and
there is no proximity factor built from the operands' word texts. -/
theorem claim_C1_counterexample :
    (translate 1 none (.blockRef "X")).c = []
      ∧ (translate 1 none (.word "A")).c = []
      ∧ translate 1 none (.prox "NNn" 1 (.blockRef "X") (.word "A"))
          = ⟨some "X,1n,A", []⟩
      ∧ ¬ ∃ lw rw : String,
          (translate 1 none (.blockRef "X")).w = some lw
            ∧ (translate 1 none (.word "A")).w = some rw
            ∧ (translate 1 none (.prox "NNn" 1 (.blockRef "X") (.word "A"))).w
                = some (lw ++ ",1n," ++ rw) := by
  refine ⟨rfl, rfl, by decide, ?_⟩
  rintro ⟨lw, rw, h1, -, -⟩
  exact Option.noConfusion (show (none : Option String) = some lw from h1)

/-- C1 amended: translating a two-operand proximity node yields the
proximity word factor built from the operands' word texts iff neither
translated operand carries classification content AND both operands yield
non-blank word text; in every other case the translation is the single
opaque word factor equal to the node's logical-form rendering, with an
empty classification list. -/
theorem claim_C1_amended (fuel : Nat) (repo : Option Repo) (mode : String)
    (k : Nat) (left right : ExprNode) :
    (((translate (fuel + 1) repo left).c = []
        ∧ (translate (fuel + 1) repo right).c = []
        ∧ optWFalsy (translate (fuel + 1) repo left).w = false
        ∧ optWFalsy (translate (fuel + 1) repo right).w = false) →
      translate (fuel + 1) repo (.prox mode k left right)
        = ⟨some (((translate (fuel + 1) repo left).w.getD "") ++ ","
            ++ toString k ++ (if mode = "NNc" then "c" else "n") ++ ","
            ++ ((translate (fuel + 1) repo right).w.getD "")), []⟩)
    ∧ (((translate (fuel + 1) repo left).c ≠ []
        ∨ (translate (fuel + 1) repo right).c ≠ []
        ∨ optWFalsy (translate (fuel + 1) repo left).w = true
        ∨ optWFalsy (translate (fuel + 1) repo right).w = true) →
      translate (fuel + 1) repo (.prox mode k left right)
        = ⟨some (renderLogical (.prox mode k left right)), []⟩) := by
  rw [translate_prox]
  constructor
  · rintro ⟨hlc, hrc, hlw, hrw⟩
    simp [hlc, hrc, hlw, hrw]
  · intro h
    rcases h with h | h | h | h <;>
      simp [h, List.isEmpty_iff]

/-- C1 amended witness: both directions at concrete inputs. -/
theorem claim_C1_amended_witness :
    translate 1 none (.prox "NNn" 10 (.word "NB") (.word "UE"))
        = ⟨some "NB,10n,UE", []⟩
      ∧ translate 1
          (some (fun id =>
            if id = "C" then some (Block.CB "C" ["F"] "(F)" "s") else none))
          (.prox "NNn" 3 (.blockRef "C") (.word "A"))
        = ⟨some "C,3n,A", []⟩ := by
  have h1 := (claim_C1_amended 0 none "NNn" 10 (.word "NB") (.word "UE")).1
    (by refine ⟨rfl, rfl, rfl, rfl⟩)
  have h2 := (claim_C1_amended 0
    (some (fun id =>
      if id = "C" then some (Block.CB "C" ["F"] "(F)" "s") else none))
    "NNn" 3 (.blockRef "C") (.word "A")).2
    (Or.inl (by decide))
  exact ⟨h1.trans (by decide), h2.trans (by decide)⟩

/-- C4 counterexample: with three plain word operands and no context, the
two AND association orders give different word strings, so the .w component
of the two translations is not equal. -/
theorem claim_C4_counterexample :
    (translate 1 none
        (.logical "*" [.word "a", .logical "*" [.word "b", .word "c"]])).w
      = some "(a)*((b)*(c))"
    ∧ (translate 1 none
        (.logical "*" [.logical "*" [.word "a", .word "b"], .word "c"])).w
      = some "((a)*(b))*(c)"
    ∧ (translate 1 none
        (.logical "*" [.word "a", .logical "*" [.word "b", .word "c"]])).w
      ≠ (translate 1 none
        (.logical "*" [.logical "*" [.word "a", .word "b"], .word "c"])).w := by
  refine ⟨by decide, by decide, by decide⟩

/-- C5 (confirmed): the two unsupported combinations degrade instead of
raising.  An OR node whose children's translations include a mixed branch,
or both a word branch and a classification branch, translates to its
logical-form rendering as a single opaque word factor (provided that
rendering is non-empty); a proximity node with classification content on
either side translates to its logical-form rendering as a single opaque
word factor.  The translation function itself is total. -/
theorem claim_C5 (fuel : Nat) (repo : Option Repo) :
    (∀ children : List ExprNode,
      ((∃ p ∈ children.map (translate (fuel + 1) repo),
          partType p = PType.mixed)
        ∨ ((∃ p ∈ children.map (translate (fuel + 1) repo),
              partType p = PType.word)
            ∧ (∃ p ∈ children.map (translate (fuel + 1) repo),
              partType p = PType.cls))) →
      renderLogical (.logical "+" children) ≠ "" →
      translate (fuel + 1) repo (.logical "+" children)
        = ⟨some (renderLogical (.logical "+" children)), []⟩)
    ∧ (∀ (mode : String) (k : Nat) (left right : ExprNode),
      ((translate (fuel + 1) repo left).c ≠ []
        ∨ (translate (fuel + 1) repo right).c ≠ []) →
      translate (fuel + 1) repo (.prox mode k left right)
        = ⟨some (renderLogical (.prox mode k left right)), []⟩) := by
  constructor
  · intro children hmix hlog
    rw [translate_logical]
    have hne : (children.map (translate (fuel + 1) repo)).isEmpty = false := by
      rcases hmix with ⟨p, hp, -⟩ | ⟨⟨p, hp, -⟩, -⟩ <;>
        { cases children with
          | nil => simp at hp
          | cons c cs => rfl }
    simp only [hne, Bool.false_eq_true, if_false, if_neg (by decide : ¬("+" = "*")),
      if_pos rfl]
    unfold combineFieldPartsOr
    have hcond : ((children.map (translate (fuel + 1) repo)).any
        (fun p => partType p == PType.mixed)
      || ((children.map (translate (fuel + 1) repo)).any
            (fun p => partType p == PType.word)
          && (children.map (translate (fuel + 1) repo)).any
            (fun p => partType p == PType.cls))) = true := by
      rcases hmix with ⟨p, hp, ht⟩ | ⟨⟨p, hp, ht⟩, ⟨q, hq, hu⟩⟩
      · simp only [Bool.or_eq_true]
        exact Or.inl (List.any_eq_true.mpr ⟨p, hp, by simp [ht]⟩)
      · simp only [Bool.or_eq_true, Bool.and_eq_true]
        exact Or.inr ⟨List.any_eq_true.mpr ⟨p, hp, by simp [ht]⟩,
           List.any_eq_true.mpr ⟨q, hq, by simp [hu]⟩⟩
    simp [hcond, hlog]
  · intro mode k left right h
    rw [translate_prox]
    rcases h with h | h <;> simp [h, List.isEmpty_iff]

/-- C5 witness: a word/class mixed OR and a proximity with a classification
side, both at concrete inputs, degrade to their logical forms. -/
theorem claim_C5_witness :
    translate 1
        (some (fun id =>
          if id = "C" then some (Block.CB "C" ["F"] "(F)" "s") else none))
        (.logical "+" [.word "w", .blockRef "C"])
      = ⟨some "w + C", []⟩
    ∧ translate 1
        (some (fun id =>
          if id = "C" then some (Block.CB "C" ["F"] "(F)" "s") else none))
        (.prox "NNn" 5 (.blockRef "C") (.word "A"))
      = ⟨some "C,5n,A", []⟩ := by
  have h := claim_C5 0
    (some (fun id =>
      if id = "C" then some (Block.CB "C" ["F"] "(F)" "s") else none))
  refine ⟨(h.1 [.word "w", .blockRef "C"] ?_ (by decide)).trans (by decide),
    (h.2 "NNn" 5 (.blockRef "C") (.word "A") (Or.inl (by decide))).trans
      (by decide)⟩
  exact Or.inr ⟨⟨⟨some "w", []⟩, by decide, by decide⟩,
    ⟨⟨none, ["(F)"]⟩, by decide, by decide⟩⟩

/-- C2 (confirmed): when every child of a top-level OR node translates to a
classification-only FieldParts value, renderQuery produces the single
bracket group with the branch expressions OR-joined inside one pair of
parentheses. -/
theorem claim_C2 (fuel : Nat) (repo : Option Repo) (children : List ExprNode)
    (hne : children ≠ [])
    (hcls : ∀ p ∈ children.map (translate fuel repo), partType p = PType.cls) :
    renderQuery fuel (some (.logical "+" children)) repo
      = "[" ++ ("(" ++ String.intercalate "+"
            ((children.map (translate fuel repo)).map
              (fun p => String.intercalate "+" p.c)) ++ ")") ++ "/CP+"
          ++ ("(" ++ String.intercalate "+"
            ((children.map (translate fuel repo)).map
              (fun p => String.intercalate "+" p.c)) ++ ")") ++ "/FI]" := by
  have hne' : children.isEmpty = false := by
    cases children with
    | nil => exact absurd rfl hne
    | cons c cs => rfl
  have hmix : (children.map (translate fuel repo)).any
      (fun p => partType p == PType.mixed) = false := by
    apply List.any_eq_false.mpr
    intro p hp
    simp [hcls p hp]
  have hword : (children.map (translate fuel repo)).any
      (fun p => partType p == PType.word) = false := by
    apply List.any_eq_false.mpr
    intro p hp
    simp [hcls p hp]
  have hcl : (children.map (translate fuel repo)).any
      (fun p => partType p == PType.cls) = true := by
    cases children with
    | nil => exact absurd rfl hne
    | cons c cs =>
      exact List.any_eq_true.mpr ⟨translate fuel repo c, by simp,
        by simp [hcls (translate fuel repo c) (by simp)]⟩
  have hfilter : (children.map (translate fuel repo)).filter
      (fun p => !p.c.isEmpty) = children.map (translate fuel repo) := by
    apply List.filter_eq_self.mpr
    intro p hp
    have := (partType_eq_cls p).mp (hcls p hp)
    simp [List.isEmpty_iff, this.2]
  have hbr : (children.map (translate fuel repo)).map
      (fun p => String.intercalate "+" p.c) ≠ [] := by
    cases children with
    | nil => exact absurd rfl hne
    | cons c cs => simp
  simp only [renderQuery, if_neg (by simp : ¬("+" : String) ≠ "+"), hne',
    Bool.false_eq_true, if_false, hmix, hword, hcl, Bool.false_or,
    Bool.false_and, hfilter, if_neg hbr]
  rfl

/-- C2 witness: two classification block references under OR render as one
merged bracket group. -/
theorem claim_C2_witness :
    renderQuery 1 (some (.logical "+" [.blockRef "A", .blockRef "B"]))
        (some (fun id =>
          if id = "A" then some (Block.CB "A" ["F1"] "" "")
          else if id = "B" then some (Block.CB "B" ["F2"] "" "") else none))
      = "[((F1)+(F2))/CP+((F1)+(F2))/FI]" := by
  have h := claim_C2 1
    (some (fun id =>
      if id = "A" then some (Block.CB "A" ["F1"] "" "")
      else if id = "B" then some (Block.CB "B" ["F2"] "" "") else none))
    [.blockRef "A", .blockRef "B"] (List.cons_ne_nil _ _) (by decide)
  exact h.trans (by decide)

/- ===================  trim and product lemmas (for C4)  =================== -/

theorem dropWhile_head?_false (p : Char → Bool) (l : List Char) (x : Char)
    (h : (l.dropWhile p).head? = some x) : p x = false := by
  have h2 := List.head?_dropWhile_not p l
  rw [h] at h2
  exact h2

theorem jsTrimL_dropWhile (l : List Char) :
    (jsTrimL l).dropWhile isWSChar = jsTrimL l := by
  cases hbr : jsTrimL l with
  | nil => rfl
  | cons x xs =>
    have hx : isWSChar x = false := by
      have h1 : (jsTrimL l).head? = some x := by rw [hbr]; rfl
      unfold jsTrimL at h1
      rw [List.head?_reverse] at h1
      obtain ⟨t, ht⟩ :=
        List.dropWhile_suffix (l := (l.dropWhile isWSChar).reverse) isWSChar
      have hb : (t ++ (l.dropWhile isWSChar).reverse.dropWhile isWSChar).getLast?
          = some x := by
        rw [List.getLast?_append, h1]
        rfl
      rw [ht, List.getLast?_reverse] at hb
      exact dropWhile_head?_false isWSChar l x hb
    rw [List.dropWhile_cons, hx]
    simp

theorem jsTrimL_idem (l : List Char) : jsTrimL (jsTrimL l) = jsTrimL l := by
  conv_lhs => rw [jsTrimL]
  rw [jsTrimL_dropWhile l]
  rw [show (jsTrimL l).reverse
      = (l.dropWhile isWSChar).reverse.dropWhile isWSChar from by
    rw [jsTrimL, List.reverse_reverse]]
  rw [List.dropWhile_idempotent]
  rfl

theorem jsTrim_idem (s : String) : jsTrim (jsTrim s) = jsTrim s := by
  apply String.ext
  show jsTrimL (jsTrimL s.data) = jsTrimL s.data
  exact jsTrimL_idem s.data

theorem jsTrimL_of_ends (c d : Char) (m : List Char)
    (hc : isWSChar c = false) (hd : isWSChar d = false) :
    jsTrimL (c :: (m ++ [d])) = c :: (m ++ [d]) := by
  unfold jsTrimL
  rw [List.dropWhile_cons, hc]
  simp only [Bool.false_eq_true, if_false]
  rw [List.reverse_cons]
  rw [show (m ++ [d]).reverse = d :: m.reverse from by simp]
  rw [show (d :: m.reverse) ++ [c] = d :: (m.reverse ++ [c]) from rfl]
  rw [List.dropWhile_cons, hd]
  simp

theorem data_wrap (x y : String) :
    ("(" ++ x ++ ")*(" ++ y ++ ")").data
      = '(' :: ((x.data ++ ([')', '*', '('] ++ y.data)) ++ [')']) := by
  simp only [String.data_append,
    show "(".data = ['('] from rfl, show ")*(".data = [')', '*', '('] from rfl,
    show ")".data = [')'] from rfl]
  simp

theorem jsTrim_wrap (x y : String) :
    jsTrim ("(" ++ x ++ ")*(" ++ y ++ ")") = "(" ++ x ++ ")*(" ++ y ++ ")" := by
  apply String.ext
  show jsTrimL ("(" ++ x ++ ")*(" ++ y ++ ")").data
      = ("(" ++ x ++ ")*(" ++ y ++ ")").data
  rw [data_wrap]
  exact jsTrimL_of_ends '(' ')' _ rfl rfl

theorem wrap_ne_empty (x y : String) : ("(" ++ x ++ ")*(" ++ y ++ ")") ≠ "" := by
  intro h
  have := congrArg String.data h
  rw [data_wrap] at this
  exact List.noConfusion this

theorem effWord_some (p : FieldParts) (t : String) (h : effWord p = some t) :
    jsTrim t = t ∧ t ≠ "" := by
  rcases p with ⟨w, c⟩
  rcases w with _ | s
  · exact Option.noConfusion h
  · have h' : (if jsTrim s = "" then none else some (jsTrim s)) = some t := h
    by_cases hs : jsTrim s = ""
    · rw [if_pos hs] at h'
      exact Option.noConfusion h'
    · rw [if_neg hs] at h'
      have ht : t = jsTrim s := (Option.some.injEq _ _ ▸ h').symm
      subst ht
      exact ⟨jsTrim_idem s, hs⟩

theorem product_pair (X Y : FieldParts) :
    combineFieldPartsProduct [X, Y] = ⟨pairW (effWord X) (effWord Y), X.c ++ Y.c⟩ := by
  rcases hX : effWord X with _ | tx <;> rcases hY : effWord Y with _ | ty <;>
    simp [combineFieldPartsProduct, pairW, hX, hY]

theorem effWord_mk_some (w : String) (c : List String) (hw : jsTrim w = w)
    (hne : w ≠ "") : effWord ⟨some w, c⟩ = some w := by
  unfold effWord
  simp only [hw]
  rw [if_neg hne]

theorem effWord_product_pair (X Y : FieldParts) :
    effWord (combineFieldPartsProduct [X, Y]) = pairW (effWord X) (effWord Y) := by
  rw [product_pair]
  rcases hX : effWord X with _ | tx <;> rcases hY : effWord Y with _ | ty
  · rfl
  · have h := effWord_some Y ty hY
    rw [show pairW none (some ty) = some ty from rfl]
    exact effWord_mk_some ty _ h.1 h.2
  · have h := effWord_some X tx hX
    rw [show pairW (some tx) none = some tx from rfl]
    exact effWord_mk_some tx _ h.1 h.2
  · rw [show pairW (some tx) (some ty)
        = some ("(" ++ tx ++ ")*(" ++ ty ++ ")") from rfl]
    exact effWord_mk_some _ _ (jsTrim_wrap tx ty) (wrap_ne_empty tx ty)

theorem eraseParens_append (s t : String) :
    eraseParens (s ++ t) = eraseParens s ++ eraseParens t := by
  apply String.ext
  show (String.mk ((s ++ t).data.filter _)).data = (eraseParens s ++ eraseParens t).data
  rw [String.data_append, String.data_append]
  show ((s.data ++ t.data).filter _) = (s.data.filter _) ++ (t.data.filter _)
  exact List.filter_append _ _

theorem pairW_assoc_erased (x y z : Option String) :
    Option.map eraseParens (pairW x (pairW y z))
      = Option.map eraseParens (pairW (pairW x y) z) := by
  rcases x with _ | tx <;> rcases y with _ | ty <;> rcases z with _ | tz <;>
    try rfl
  show some (eraseParens
      ("(" ++ tx ++ ")*(" ++ ("(" ++ ty ++ ")*(" ++ tz ++ ")") ++ ")"))
    = some (eraseParens
      ("(" ++ ("(" ++ tx ++ ")*(" ++ ty ++ ")") ++ ")*(" ++ tz ++ ")"))
  congr 1
  simp only [eraseParens_append,
    show eraseParens "(" = "" from rfl,
    show eraseParens ")*(" = "*" from rfl,
    show eraseParens ")" = "" from rfl,
    String.empty_append, String.append_empty, String.append_assoc]

theorem translate_and_pair (fuel : Nat) (repo : Option Repo) (x y : ExprNode) :
    translate (fuel + 1) repo (.logical "*" [x, y])
      = combineFieldPartsProduct
          [translate (fuel + 1) repo x, translate (fuel + 1) repo y] := by
  rw [translate_logical]
  rfl

/-- C4 amended: AND-translation is associative on the classification-list
component, and on the word component only up to the parenthesis nesting the
product combiner inserts: the two association orders give word strings that
are equal after erasing parentheses, but not equal as plain strings (see the
counterexample). -/
theorem claim_C4_amended (fuel : Nat) (repo : Option Repo) (a b c : ExprNode) :
    (translate (fuel + 1) repo
        (.logical "*" [a, .logical "*" [b, c]])).c
      = (translate (fuel + 1) repo
        (.logical "*" [.logical "*" [a, b], c])).c
    ∧ Option.map eraseParens (translate (fuel + 1) repo
        (.logical "*" [a, .logical "*" [b, c]])).w
      = Option.map eraseParens (translate (fuel + 1) repo
        (.logical "*" [.logical "*" [a, b], c])).w := by
  rw [translate_and_pair fuel repo a (.logical "*" [b, c]),
    translate_and_pair fuel repo b c,
    translate_and_pair fuel repo (.logical "*" [a, b]) c,
    translate_and_pair fuel repo a b]
  constructor
  · simp [product_pair, List.append_assoc]
  · rw [product_pair (translate (fuel + 1) repo a)
        (combineFieldPartsProduct [translate (fuel + 1) repo b,
          translate (fuel + 1) repo c])]
    rw [product_pair (combineFieldPartsProduct [translate (fuel + 1) repo a,
          translate (fuel + 1) repo b]) (translate (fuel + 1) repo c)]
    rw [effWord_product_pair, effWord_product_pair]
    exact pairW_assoc_erased _ _ _


/- ===================  C6: JSON shape and rejection  =================== -/

/-- C6 counterexample: a block-reference node serializes with type tag
"blockRef", which is not among the claim's five tags (the claim names
"entityRef" instead), and deserialization rejects "entityRef". -/
theorem claim_C6_counterexample :
    exprNodeToJSON (.blockRef "WB-0001")
        = .obj [("type", .str "blockRef"), ("blockId", .str "WB-0001")]
    ∧ ("blockRef" ∉
        (["word", "entityRef", "logical", "proximity", "simulProx"] : List String))
    ∧ exprNodeFromJSON 1 (.obj [("type", .str "entityRef")])
        = .error "Unknown AST node type: entityRef" := by
  refine ⟨rfl, by decide, rfl⟩

theorem exprNodeListToJSON_length (cs : List ExprNode) :
    (exprNodeListToJSON cs).length = cs.length := by
  induction cs with
  | nil => rfl
  | cons c cs ih => simp [exprNodeListToJSON, ih]

/-- C6 amended: every AST node (with the 3-children arity at a simultaneous
proximity node) serializes to a JSON object whose type tag is one of word,
blockRef, logical, proximity, simulProx, with logical carrying op and a
children array, proximity carrying mode, k and 2 children, simulProx
carrying mode, k and 3 children; deserialization raises an error for every
object whose type is not one of these five tags. -/
theorem claim_C6_amended :
    (∀ node : ExprNode, topSimul3 node = true →
        shapeOKTop (exprNodeToJSON node) = true)
    ∧ (∀ (fields : List (String × JVal)) (fuel : Nat),
        objTagAllowed fields = false →
        ∃ msg, exprNodeFromJSON (fuel + 1) (.obj fields) = .error msg) := by
  constructor
  · intro node h
    cases node with
    | word t => rfl
    | blockRef id => rfl
    | logical op cs => rfl
    | prox mode k l r => rfl
    | simulProx k cs =>
        have h3 : cs.length = 3 := by simpa [topSimul3] using h
        simp [exprNodeToJSON, shapeOKTop, lookupField, List.find?,
          exprNodeListToJSON_length, h3]
  · intro fields fuel h
    rcases hlk : lookupField fields "type" with _ | v
    · exact ⟨"Unknown AST node type: (not a string)",
        by simp [exprNodeFromJSON, hlk]⟩
    · cases v with
      | str t =>
          have ht : (((¬t = "word" ∧ ¬t = "blockRef") ∧ ¬t = "logical")
              ∧ ¬t = "proximity") ∧ ¬t = "simulProx" := by
            simpa [objTagAllowed, hlk, allowedTag] using h
          exact ⟨"Unknown AST node type: " ++ t,
            by simp [exprNodeFromJSON, hlk, ht.1.1.1.1, ht.1.1.1.2,
              ht.1.1.2, ht.1.2, ht.2]⟩
      | num n => exact ⟨"Unknown AST node type: (not a string)",
          by simp [exprNodeFromJSON, hlk]⟩
      | arr l => exact ⟨"Unknown AST node type: (not a string)",
          by simp [exprNodeFromJSON, hlk]⟩
      | obj f2 => exact ⟨"Unknown AST node type: (not a string)",
          by simp [exprNodeFromJSON, hlk]⟩

/-- C6 amended witness: shape at a concrete 3-child simultaneous node, and
rejection of a non-string tag. -/
theorem claim_C6_amended_witness :
    shapeOKTop (exprNodeToJSON (.simulProx 5 [.word "a", .word "b", .word "c"]))
        = true
    ∧ ∃ msg, exprNodeFromJSON 1 (.obj [("type", .num 7)]) = .error msg := by
  have h := claim_C6_amended
  exact ⟨h.1 (.simulProx 5 [.word "a", .word "b", .word "c"]) rfl,
    h.2 [("type", .num 7)] 0 rfl⟩

/- ===================  C7: classification validator  =================== -/

mutual

theorem walk_err_forbidden (expr : ExprNode) (codes : List String)
    (h : containsForbidden expr = true) :
    ∃ msg, walkClassExpr codes expr = .error msg := by
  cases expr with
  | word t => simp [containsForbidden] at h
  | blockRef id => exact ⟨_, rfl⟩
  | prox m k l r => exact ⟨_, rfl⟩
  | simulProx k cs => exact ⟨_, rfl⟩
  | logical op cs =>
      by_cases hop : op = "+"
      · subst hop
        have hcs : anyForbidden cs = true := by
          simpa [containsForbidden] using h
        obtain ⟨msg, hm⟩ := walkList_err_forbidden cs codes hcs
        exact ⟨msg, by simp [walkClassExpr, hm]⟩
      · exact ⟨"分類行には \"*\" や \"-\" ではなく \"+\" のみ使用できます",
          by simp [walkClassExpr, hop]⟩

theorem walkList_err_forbidden (cs : List ExprNode) (codes : List String)
    (h : anyForbidden cs = true) :
    ∃ msg, walkClassExprList codes cs = .error msg := by
  cases cs with
  | nil => simp [anyForbidden] at h
  | cons c cs' =>
      have h' : containsForbidden c = true ∨ anyForbidden cs' = true := by
        simpa [anyForbidden, Bool.or_eq_true] using h
      cases hw : walkClassExpr codes c with
      | error msg =>
          exact ⟨msg, by simp only [walkClassExprList]; rw [hw]; rfl⟩
      | ok codes1 =>
          rcases h' with hc | hcs
          · obtain ⟨msg, hm⟩ := walk_err_forbidden c codes hc
            rw [hw] at hm
            exact Except.noConfusion hm
          · obtain ⟨msg, hm⟩ := walkList_err_forbidden cs' codes1 hcs
            exact ⟨msg, by simp only [walkClassExprList]; rw [hw]; exact hm⟩

end

mutual

theorem walk_ok_clean (expr : ExprNode) (codes : List String)
    (h : cleanExpr expr = true) :
    ∃ codes', walkClassExpr codes expr = .ok codes'
      ∧ (∀ x ∈ codes, x ∈ codes')
      ∧ (hasNonBlankLeaf expr = true → codes' ≠ []) := by
  cases expr with
  | word t =>
      refine ⟨if jsTrim t = "" then codes else addCode codes (jsTrim t),
        rfl, ?_, ?_⟩
      · intro x hx
        by_cases hb : jsTrim t = ""
        · simpa [hb] using hx
        · simp only [if_neg hb, addCode]
          split
          · exact hx
          · exact List.mem_append_left _ hx
      · intro hnb
        have hb : jsTrim t ≠ "" := by
          simpa [hasNonBlankLeaf] using hnb
        simp only [if_neg hb, addCode]
        split
        · exact List.ne_nil_of_mem (by assumption)
        · simp
  | blockRef id => simp [cleanExpr] at h
  | prox m k l r => simp [cleanExpr] at h
  | simulProx k cs => simp [cleanExpr] at h
  | logical op cs =>
      have hop : op = "+" ∧ allClean cs = true := by
        simpa [cleanExpr, Bool.and_eq_true] using h
      obtain ⟨codes', hw, hsub, hnb⟩ := walkList_ok_clean cs codes hop.2
      refine ⟨codes', ?_, hsub, ?_⟩
      · rw [hop.1]
        simpa [walkClassExpr] using hw
      · intro hx
        apply hnb
        simpa [hasNonBlankLeaf] using hx

theorem walkList_ok_clean (cs : List ExprNode) (codes : List String)
    (h : allClean cs = true) :
    ∃ codes', walkClassExprList codes cs = .ok codes'
      ∧ (∀ x ∈ codes, x ∈ codes')
      ∧ (anyNonBlankLeaf cs = true → codes' ≠ []) := by
  cases cs with
  | nil =>
      exact ⟨codes, rfl, fun x hx => hx, by simp [anyNonBlankLeaf]⟩
  | cons c cs' =>
      have h' : cleanExpr c = true ∧ allClean cs' = true := by
        simpa [allClean, Bool.and_eq_true] using h
      obtain ⟨c1, hw, hsub1, hnb1⟩ := walk_ok_clean c codes h'.1
      obtain ⟨c2, hwl, hsub2, hnb2⟩ := walkList_ok_clean cs' c1 h'.2
      refine ⟨c2, by simp only [walkClassExprList]; rw [hw]; exact hwl,
        fun x hx => hsub2 x (hsub1 x hx), ?_⟩
      intro hany
      have hor : hasNonBlankLeaf c = true ∨ anyNonBlankLeaf cs' = true := by
        simpa [anyNonBlankLeaf, Bool.or_eq_true] using hany
      rcases hor with hc | hcs
      · have hne1 := hnb1 hc
        obtain ⟨x, hx⟩ := List.exists_mem_of_ne_nil c1 hne1
        exact List.ne_nil_of_mem (hsub2 x hx)
      · exact hnb2 hcs

end

mutual

theorem clean_of_walk_ok (expr : ExprNode) (codes codes' : List String)
    (h : walkClassExpr codes expr = .ok codes') : cleanExpr expr = true := by
  cases expr with
  | word t => rfl
  | blockRef id => exact absurd h (by simp [walkClassExpr])
  | prox m k l r => exact absurd h (by simp [walkClassExpr])
  | simulProx k cs => exact absurd h (by simp [walkClassExpr])
  | logical op cs =>
      by_cases hop : op = "+"
      · subst hop
        have h2 : walkClassExprList codes cs = .ok codes' := by
          simpa [walkClassExpr] using h
        have := cleanList_of_walkList_ok cs codes codes' h2
        simp [cleanExpr, this]
      · rw [show walkClassExpr codes (.logical op cs)
            = .error "分類行には \"*\" や \"-\" ではなく \"+\" のみ使用できます"
            from by simp [walkClassExpr, hop]] at h
        exact Except.noConfusion h

theorem cleanList_of_walkList_ok (cs : List ExprNode) (codes codes' : List String)
    (h : walkClassExprList codes cs = .ok codes') : allClean cs = true := by
  cases cs with
  | nil => rfl
  | cons c cs' =>
      cases hw : walkClassExpr codes c with
      | error m =>
          rw [show walkClassExprList codes (c :: cs') = .error m
              from by simp only [walkClassExprList]; rw [hw]; rfl] at h
          exact Except.noConfusion h
      | ok c1 =>
          have h2 : walkClassExprList c1 cs' = .ok codes' := by
            simpa [walkClassExprList, hw] using h
          have hc := clean_of_walk_ok c codes c1 hw
          have hcs := cleanList_of_walkList_ok cs' c1 codes' h2
          simp [allClean, hc, hcs]

end

/-- C7 counterexample: a blank word leaf contains no "*", proximity or
reference content, yet code extraction fails instead of producing a
non-empty code list. -/
theorem claim_C7_counterexample :
    containsForbidden (.word "") = false
    ∧ extractCodesFromClassExpr (.word "")
        = .error "分類行から分類コードを抽出できませんでした" :=
  ⟨rfl, rfl⟩

/-- C7 amended: extraction fails with a descriptive error for every AST
containing a "*" node, a proximity node or a block reference; everything it
accepts is made of word leaves combined only by "+", with a non-empty code
list; and conversely every "+"-only tree of word leaves with at least one
non-blank leaf is accepted with a non-empty code list. -/
theorem claim_C7_amended :
    (∀ expr : ExprNode, containsForbidden expr = true →
        ∃ msg, extractCodesFromClassExpr expr = .error msg)
    ∧ (∀ (expr : ExprNode) (codes : List String),
        extractCodesFromClassExpr expr = .ok codes →
        cleanExpr expr = true ∧ codes ≠ [])
    ∧ (∀ expr : ExprNode, cleanExpr expr = true → hasNonBlankLeaf expr = true →
        ∃ codes, extractCodesFromClassExpr expr = .ok codes ∧ codes ≠ []) := by
  refine ⟨?_, ?_, ?_⟩
  · intro expr h
    obtain ⟨msg, hm⟩ := walk_err_forbidden expr [] h
    exact ⟨msg, by simp [extractCodesFromClassExpr, hm]⟩
  · intro expr codes h
    unfold extractCodesFromClassExpr at h
    cases hw : walkClassExpr [] expr with
    | error m => rw [hw] at h; exact Except.noConfusion h
    | ok cs =>
        rw [hw] at h
        have h' : (if cs.isEmpty = true then
            (Except.error "分類行から分類コードを抽出できませんでした"
              : Except String (List String))
          else Except.ok cs) = Except.ok codes := h
        by_cases he : cs.isEmpty
        · rw [if_pos he] at h'; exact Except.noConfusion h'
        · rw [if_neg he] at h'
          have hcc : cs = codes := by
            injection h'
          subst hcc
          refine ⟨clean_of_walk_ok expr [] cs hw, ?_⟩
          intro hnil
          rw [hnil] at he
          exact he rfl
  · intro expr hclean hnb
    obtain ⟨codes', hw, _, hne⟩ := walk_ok_clean expr [] hclean
    have hne' := hne hnb
    have hemp : codes'.isEmpty = false := by
      cases codes' with
      | nil => exact absurd rfl hne'
      | cons x xs => rfl
    exact ⟨codes', by simp [extractCodesFromClassExpr, hw, hemp], hne'⟩

/-- C7 amended witness: a proximity operand inside a classification line is
rejected; a plain "+" line is accepted with a non-empty code list. -/
theorem claim_C7_amended_witness :
    (∃ msg, extractCodesFromClassExpr
        (.logical "+" [.word "H04W16/24", .prox "NNn" 1 (.word "a") (.word "b")])
      = .error msg)
    ∧ (∃ codes, extractCodesFromClassExpr
        (.logical "+" [.word "H04W16/24", .word "H04W36/00"]) = .ok codes
        ∧ codes ≠ []) := by
  have h := claim_C7_amended
  exact ⟨h.1 (.logical "+" [.word "H04W16/24", .prox "NNn" 1 (.word "a") (.word "b")]) rfl,
    h.2.2 (.logical "+" [.word "H04W16/24", .word "H04W36/00"]) rfl rfl⟩


/- ===================  C9: tokenizer totality  =================== -/

theorem singleCharTok_ne_eof (c : Char) : (singleCharTok c).type ≠ .eof := by
  unfold singleCharTok
  repeat' split
  all_goals simp

theorem nextToken_cases (lastNW : Option Char) (input : List Char) :
    ((nextToken lastNW input).1 = ⟨.eof, ""⟩)
    ∨ ((nextToken lastNW input).1.type ≠ .eof
        ∧ (nextToken lastNW input).2.2.length < input.length) := by
  unfold nextToken
  split
  · exact Or.inl rfl
  · rename_i c cs hrest
    right
    have hlen : cs.length + 1 ≤ input.length := by
      have h1 : (input.dropWhile isWSChar).length ≤ input.length :=
        (List.dropWhile_sublist _).length_le
      rw [hrest] at h1
      simpa using h1
    have hA : (cs.dropWhile isAlphaChar).length ≤ cs.length :=
      (List.dropWhile_sublist _).length_le
    have hD : (cs.dropWhile isDigitChar).length ≤ cs.length :=
      (List.dropWhile_sublist _).length_le
    have hQ : (cs.dropWhile (fun ch => !isSeparatorChar ch)).length ≤ cs.length :=
      (List.dropWhile_sublist _).length_le
    have hcws : isWSChar c = false := dropWhile_head?_false isWSChar input c
      (by rw [hrest]; rfl)
    split
    · exact ⟨singleCharTok_ne_eof c, by show cs.length < input.length; omega⟩
    · rename_i h1
      split
      · rename_i h2
        split
        · split
          · exact ⟨by simp, by show (cs.dropWhile isAlphaChar).length < input.length; omega⟩
          · exact ⟨by simp, by show (cs.dropWhile isAlphaChar).length < input.length; omega⟩
        · subst h2
          have hdropQ : ('/' :: cs).dropWhile (fun ch => !isSeparatorChar ch)
              = cs.dropWhile (fun ch => !isSeparatorChar ch) := by
            rw [List.dropWhile_cons]
            simp [isSeparatorChar, isSingleCharTok, isWSChar]
          refine ⟨by simp, ?_⟩
          show (('/' :: cs).dropWhile (fun ch => !isSeparatorChar ch)).length < input.length
          rw [hdropQ]
          omega
      · rename_i h2
        split
        · rename_i h5
          have hdropD : (c :: cs).dropWhile isDigitChar = cs.dropWhile isDigitChar := by
            rw [List.dropWhile_cons]
            simp [h5]
          split
          · rename_i d ds hr2
            rw [hdropD] at hr2
            have hds : ds.length + 1 ≤ cs.length := by
              have := congrArg List.length hr2
              simp at this
              omega
            split
            · exact ⟨by simp, by show ds.length < input.length; omega⟩
            · refine ⟨by simp, ?_⟩
              show ((c :: cs).dropWhile isDigitChar).length < input.length
              rw [hdropD, hr2]
              simp
              omega
          · exact ⟨by simp, by show ([] : List Char).length < input.length; simp; omega⟩
        · rename_i h5
          have hsep : isSeparatorChar c = false := by
            simp only [isSeparatorChar, hcws, Bool.false_or]
            simpa using h1
          have hdropQ : (c :: cs).dropWhile (fun ch => !isSeparatorChar ch)
              = cs.dropWhile (fun ch => !isSeparatorChar ch) := by
            rw [List.dropWhile_cons]
            simp [hsep]
          refine ⟨by simp, ?_⟩
          show ((c :: cs).dropWhile (fun ch => !isSeparatorChar ch)).length < input.length
          rw [hdropQ]
          omega

theorem nextToken_ident_absorb (lastNW : Option Char) (input : List Char)
    (c : Char) (cs : List Char)
    (hrest : input.dropWhile isWSChar = c :: cs)
    (h1 : isSingleCharTok c = false) (h2 : c ≠ '/') (h3 : isDigitChar c = false) :
    (nextToken lastNW input).1
      = ⟨.ident, String.mk ((c :: cs).takeWhile (fun ch => !isSeparatorChar ch))⟩ := by
  unfold nextToken
  split
  · rename_i heq
    rw [hrest] at heq
    exact List.noConfusion heq
  · rename_i c' cs' heq
    rw [hrest] at heq
    obtain ⟨hc, hcs⟩ : c = c' ∧ cs = cs' := by
      injection heq with ha hb
      exact ⟨ha, hb⟩
    subst hc
    subst hcs
    rw [if_neg (by simp [h1]), if_neg h2, if_neg (by simp [h3])]

theorem tokenizeGo_ends_eof (fuel : Nat) :
    ∀ (lastNW : Option Char) (input : List Char), input.length < fuel →
    (tokenizeGo fuel lastNW input).getLast? = some ⟨.eof, ""⟩ := by
  induction fuel with
  | zero => intro _ _ h; omega
  | succ f ih =>
    intro lastNW input h
    rcases nextToken_cases lastNW input with he | ⟨ht, hlt⟩
    · unfold tokenizeGo
      rw [he]
      simp
    · unfold tokenizeGo
      rw [if_neg ht]
      have hrec := ih (nextToken lastNW input).2.1 (nextToken lastNW input).2.2
        (by omega)
      cases hl : tokenizeGo f (nextToken lastNW input).2.1 (nextToken lastNW input).2.2 with
      | nil => rw [hl] at hrec; simp at hrec
      | cons b bs =>
        rw [hl] at hrec
        rw [List.getLast?_cons_cons]
        exact hrec

/-- C9 (confirmed): the tokenizer is total and never raises.  Every call
either yields the end-of-input token or consumes at least one character (so
repeated calls reach the end-of-input token after finitely many steps, and
the collected token list always ends in it); and any run starting with a
character that matches no single-character operator, proximity-spec or
field-suffix rule is absorbed into one identifier token. -/
theorem claim_C9 :
    (∀ (lastNW : Option Char) (input : List Char),
        (nextToken lastNW input).1 = ⟨.eof, ""⟩
          ∨ (nextToken lastNW input).2.2.length < input.length)
    ∧ (∀ (lastNW : Option Char) (input : List Char) (c : Char) (cs : List Char),
        input.dropWhile isWSChar = c :: cs →
        isSingleCharTok c = false → c ≠ '/' → isDigitChar c = false →
        (nextToken lastNW input).1
          = ⟨.ident, String.mk ((c :: cs).takeWhile (fun ch => !isSeparatorChar ch))⟩)
    ∧ (∀ s : String, (tokenizeLine s).getLast? = some ⟨.eof, ""⟩) := by
  refine ⟨?_, nextToken_ident_absorb, ?_⟩
  · intro l i
    rcases nextToken_cases l i with h | ⟨-, h⟩
    · exact Or.inl h
    · exact Or.inr h
  · intro s
    exact tokenizeGo_ends_eof (s.data.length + 1) none s.data (by omega)

/-- C9 witness: an unrecognized character run becomes one identifier token,
and a concrete line's token list ends in the end-of-input token. -/
theorem claim_C9_witness :
    (nextToken none "?!ab c".data).1 = ⟨.ident, "?!ab"⟩
    ∧ (tokenizeLine "a+(b)").getLast? = some ⟨.eof, ""⟩ := by
  have h := claim_C9
  refine ⟨?_, h.2.2 "a+(b)"⟩
  have h2 := h.2.1 none "?!ab c".data '?' "!ab c".data (by decide) (by decide)
    (by decide) (by decide)
  exact h2.trans (by decide)


/- ===================  C8: simultaneous proximity parsing  =================== -/

/-- C8 (confirmed): parsing the three-operand simultaneous form succeeds
only with a word-distance ("n") spec — a sentence-distance ("c") spec after
the closing brace is a parse failure — and on success the resulting node is
a SimultaneousProximityNode with exactly three children (whose mode is the
fixed word-distance mode "NNn" by construction). -/
theorem claim_C8 :
    (∀ (fuel : Nat) (ts : List Tok) (e : ExprNode) (rest : List Tok),
        parseSimulProxPrimary fuel ts = .ok (e, rest) →
        ∃ (k : Nat) (a b c : ExprNode), e = .simulProx k [a, b, c])
    ∧ (∀ (a b c spec : String) (k : Nat) (rest : List Tok) (fuel : Nat),
        parseProxSpec spec = .ok ("NNc", k) →
        parseSimulProxPrimary (fuel + 2)
          ([⟨.lbrace, "\x7b"⟩, ⟨.ident, a⟩, ⟨.comma, ","⟩, ⟨.ident, b⟩,
            ⟨.comma, ","⟩, ⟨.ident, c⟩, ⟨.rbrace, "\x7d"⟩, ⟨.comma, ","⟩,
            ⟨.prox, spec⟩] ++ rest)
          = .error "Simultaneous proximity supports NNn (n) only") := by
  constructor
  · intro fuel ts e rest h
    match fuel with
    | 0 => exact Except.noConfusion h
    | Nat.succ f =>
      unfold parseSimulProxPrimary at h
      repeat' split at h
      all_goals try exact Except.noConfusion h
      injection h with h1
      cases h1
      exact ⟨_, _, _, _, rfl⟩
  · intro a b c spec k rest fuel hspec
    show (match parseProxSpec spec with
      | .error e => (.error e : Except String (ExprNode × List Tok))
      | .ok (mode, k) =>
        if mode ≠ "NNn" then
          .error "Simultaneous proximity supports NNn (n) only"
        else .ok (.simulProx k [.word a, .word b, .word c], rest))
      = .error "Simultaneous proximity supports NNn (n) only"
    rw [hspec]
    simp

/-- C8 witness: a concrete word-distance parse succeeds with a 3-child
node; a concrete sentence-distance spec fails. -/
theorem claim_C8_witness :
    (∃ (k : Nat) (a b c : ExprNode),
      (ExprNode.simulProx 5 [.word "A", .word "B", .word "C"])
        = .simulProx k [a, b, c])
    ∧ parseSimulProxPrimary 2
        ([⟨.lbrace, "\x7b"⟩, ⟨.ident, "A"⟩, ⟨.comma, ","⟩, ⟨.ident, "B"⟩,
          ⟨.comma, ","⟩, ⟨.ident, "C"⟩, ⟨.rbrace, "\x7d"⟩, ⟨.comma, ","⟩,
          ⟨.prox, "5c"⟩] ++ [⟨.eof, ""⟩])
        = .error "Simultaneous proximity supports NNn (n) only" := by
  have h := claim_C8
  constructor
  · exact h.1 2
      [⟨.lbrace, "\x7b"⟩, ⟨.ident, "A"⟩, ⟨.comma, ","⟩, ⟨.ident, "B"⟩,
        ⟨.comma, ","⟩, ⟨.ident, "C"⟩, ⟨.rbrace, "\x7d"⟩, ⟨.comma, ","⟩,
        ⟨.prox, "5n"⟩, ⟨.eof, ""⟩]
      (.simulProx 5 [.word "A", .word "B", .word "C"]) [⟨.eof, ""⟩] rfl
  · exact h.2 "A" "B" "C" "5c" 5 [⟨.eof, ""⟩] 0 rfl

theorem takeWhile_all_append (q : Char → Bool) (l1 l2 : List Char)
    (h : ∀ x ∈ l1, q x = true) :
    (l1 ++ l2).takeWhile q = l1 ++ l2.takeWhile q
    ∧ (l1 ++ l2).dropWhile q = l2.dropWhile q := by
  induction l1 with
  | nil => simp
  | cons c l1 ih =>
    have hc : q c = true := h c (by simp)
    have ih2 := ih (fun x hx => h x (by simp [hx]))
    simp only [List.cons_append, List.takeWhile_cons, List.dropWhile_cons, hc,
      if_true]
    exact ⟨by rw [ih2.1], by rw [ih2.2]⟩

theorem nextToken_skipWS (last : Option Char) (X : List Char) :
    nextToken last (' ' :: X) = nextToken last X := by
  unfold nextToken
  rw [show List.dropWhile isWSChar (' ' :: X) = List.dropWhile isWSChar X from by
    rw [List.dropWhile_cons]
    simp [isWSChar]]

theorem nextToken_plus (last : Option Char) (X : List Char) :
    nextToken last (' ' :: '+' :: ' ' :: X) = (⟨.plus, "+"⟩, some '+', ' ' :: X) := rfl

theorem nextToken_star (last : Option Char) (X : List Char) :
    nextToken last (' ' :: '*' :: ' ' :: X) = (⟨.star, "*"⟩, some '*', ' ' :: X) := rfl

theorem nextToken_goodIdent (last : Option Char) (t : String) (rest : List Char)
    (ht : goodIdentB t = true)
    (hrest : rest = [] ∨ ∃ r', rest = ' ' :: r') :
    nextToken last (t.data ++ rest)
      = (⟨.ident, t⟩, t.data.getLast?.or last, rest) := by
  cases hd : t.data with
  | nil => simp [goodIdentB, hd] at ht
  | cons c cs =>
    have hprops : (!isDigitChar c && !decide (c = '/')
        && (c :: cs).all fun ch => !isSeparatorChar ch) = true := by
      simpa [goodIdentB, hd] using ht
    simp only [Bool.and_eq_true, Bool.not_eq_true', List.all_eq_true,
      decide_eq_false_iff_not] at hprops
    have hdig : isDigitChar c = false := hprops.1.1
    have hsl : c ≠ '/' := hprops.1.2
    have hall : ∀ x ∈ c :: cs, isSeparatorChar x = false := by
      intro x hx
      have := hprops.2 x hx
      simpa using this
    have hsep : isSeparatorChar c = false := hall c (by simp)
    have hws : isWSChar c = false := by
      have h2 := hsep
      simp only [isSeparatorChar, Bool.or_eq_false_iff] at h2
      exact h2.1
    have hsingle : isSingleCharTok c = false := by
      have h2 := hsep
      simp only [isSeparatorChar, Bool.or_eq_false_iff] at h2
      exact h2.2
    have htw := takeWhile_all_append (fun ch => !isSeparatorChar ch) (c :: cs) rest
      (fun x hx => by simp [hall x hx])
    rw [List.cons_append] at htw
    have hrtw : rest.takeWhile (fun ch => !isSeparatorChar ch) = [] := by
      rcases hrest with rfl | ⟨r', rfl⟩
      · rfl
      · rw [List.takeWhile_cons]
        simp [isSeparatorChar, isWSChar]
    have hrdw : rest.dropWhile (fun ch => !isSeparatorChar ch) = rest := by
      rcases hrest with rfl | ⟨r', rfl⟩
      · rfl
      · rw [List.dropWhile_cons]
        simp [isSeparatorChar, isWSChar]
    rw [List.cons_append]
    unfold nextToken
    split
    · rename_i heq
      rw [List.dropWhile_cons] at heq
      simp [hws] at heq
    · rename_i c' cs' heq
      rw [List.dropWhile_cons] at heq
      rw [if_neg (by simp [hws])] at heq
      injection heq with h1 h2
      subst h1
      subst h2
      rw [if_neg (by simp [hsingle]), if_neg hsl, if_neg (by simp [hdig])]
      rw [htw.1, htw.2, hrtw, hrdw, List.append_nil]
      have hmk : String.mk (c :: cs) = t := by
        apply String.ext
        rw [hd]
      rw [hmk]

theorem renderItems_cons_data (op t : String) (rs : List (String × String)) :
    (renderItems ((op, t) :: rs)).data
      = ' ' :: (op.data ++ (' ' :: (t.data ++ (renderItems rs).data))) := by
  show (" " ++ op ++ " " ++ t ++ renderItems rs).data = _
  simp [String.data_append, show " ".data = [' '] from rfl]

theorem tokenizeGo_succ (fuel : Nat) (last : Option Char) (input : List Char) :
    tokenizeGo (fuel + 1) last input =
      if (nextToken last input).1.type = .eof then [(nextToken last input).1]
      else (nextToken last input).1
        :: tokenizeGo fuel (nextToken last input).2.1 (nextToken last input).2.2 := rfl

theorem tokenizeGo_step (fuel : Nat) (last : Option Char) (input : List Char)
    (tk : Tok) (last2 : Option Char) (rest : List Char)
    (h : nextToken last input = (tk, last2, rest)) (hne : tk.type ≠ .eof) :
    tokenizeGo (fuel + 1) last input = tk :: tokenizeGo fuel last2 rest := by
  rw [tokenizeGo_succ, h]
  show (if tk.type = TokType.eof then [tk]
    else tk :: tokenizeGo fuel last2 rest) = tk :: tokenizeGo fuel last2 rest
  rw [if_neg hne]

theorem tokGo_items (rs : List (String × String)) :
    ∀ (last : Option Char) (f : Nat), goodItemsB rs = true →
    2 * rs.length + 1 ≤ f →
    tokenizeGo f last (renderItems rs).data = itemsToks rs ++ [⟨.eof, ""⟩] := by
  induction rs with
  | nil =>
    intro last f _ hf
    obtain ⟨g, rfl⟩ : ∃ g, f = g + 1 := ⟨f - 1, by omega⟩
    rfl
  | cons it rs ih =>
    obtain ⟨op, t⟩ := it
    intro last f hgood hf
    have hgi : ((op == "+" || op == "*") && goodIdentB t) = true
        ∧ goodItemsB rs = true := by
      simpa [goodItemsB, List.all_cons, Bool.and_eq_true] using hgood
    have hgt : goodIdentB t = true := by
      have h2 := hgi.1
      simp only [Bool.and_eq_true] at h2
      exact h2.2
    have hop : op = "+" ∨ op = "*" := by
      have h2 := hgi.1
      simp only [Bool.and_eq_true, Bool.or_eq_true, beq_iff_eq] at h2
      exact h2.1
    have hshape : (renderItems rs).data = []
        ∨ ∃ r', (renderItems rs).data = ' ' :: r' := by
      cases rs with
      | nil => exact Or.inl rfl
      | cons it2 rs2 =>
        obtain ⟨op2, t2⟩ := it2
        exact Or.inr ⟨_, renderItems_cons_data op2 t2 rs2⟩
    simp only [List.length_cons] at hf
    obtain ⟨g, rfl⟩ : ∃ g, f = g + 2 := ⟨f - 2, by omega⟩
    rw [renderItems_cons_data]
    rcases hop with rfl | rfl
    · rw [show ("+" : String).data = ['+'] from rfl]
      show tokenizeGo (g + 1 + 1) last
        (' ' :: '+' :: ' ' :: (t.data ++ (renderItems rs).data)) = _
      rw [tokenizeGo_step (g + 1) last _ ⟨.plus, "+"⟩ (some '+') _
        (nextToken_plus last _) (by decide)]
      rw [tokenizeGo_step g (some '+') _ ⟨.ident, t⟩
        (t.data.getLast?.or (some '+')) _
        (by rw [nextToken_skipWS]
            exact nextToken_goodIdent (some '+') t _ hgt hshape)
        (by show ¬TokType.ident = TokType.eof
            decide)]
      rw [ih (t.data.getLast?.or (some '+')) g hgi.2 (by omega)]
      rfl
    · rw [show ("*" : String).data = ['*'] from rfl]
      show tokenizeGo (g + 1 + 1) last
        (' ' :: '*' :: ' ' :: (t.data ++ (renderItems rs).data)) = _
      rw [tokenizeGo_step (g + 1) last _ ⟨.star, "*"⟩ (some '*') _
        (nextToken_star last _) (by decide)]
      rw [tokenizeGo_step g (some '*') _ ⟨.ident, t⟩
        (t.data.getLast?.or (some '*')) _
        (by rw [nextToken_skipWS]
            exact nextToken_goodIdent (some '*') t _ hgt hshape)
        (by show ¬TokType.ident = TokType.eof
            decide)]
      rw [ih (t.data.getLast?.or (some '*')) g hgi.2 (by omega)]
      rfl

theorem len_renderItems_ge (rs : List (String × String)) :
    2 * rs.length ≤ (renderItems rs).data.length := by
  induction rs with
  | nil => simp [renderItems]
  | cons it rs ih =>
    obtain ⟨op, t⟩ := it
    rw [renderItems_cons_data]
    simp only [List.length_cons, List.length_append]
    omega

theorem tokenize_flat (F : Flat) (hgood : goodFlatB F = true) :
    tokenizeLine (renderFlat F)
      = ⟨.ident, F.1⟩ :: (itemsToks F.2 ++ [⟨.eof, ""⟩]) := by
  obtain ⟨w, items⟩ := F
  have hg : goodIdentB w = true ∧ goodItemsB items = true := by
    simpa [goodFlatB, Bool.and_eq_true] using hgood
  have hshape : (renderItems items).data = []
      ∨ ∃ r', (renderItems items).data = ' ' :: r' := by
    cases items with
    | nil => exact Or.inl rfl
    | cons it2 rs2 =>
      obtain ⟨op2, t2⟩ := it2
      exact Or.inr ⟨_, renderItems_cons_data op2 t2 rs2⟩
  have hdata : (renderFlat (w, items)).data
      = w.data ++ (renderItems items).data := by
    show (w ++ renderItems items).data = _
    simp [String.data_append]
  have hwlen : 1 ≤ w.data.length := by
    cases hw : w.data with
    | nil =>
      have h2 := hg.1
      simp [goodIdentB, hw] at h2
    | cons c cs => simp
  have hlen := len_renderItems_ge items
  show tokenizeGo ((renderFlat (w, items)).data.length + 1) none
      (renderFlat (w, items)).data = _
  rw [hdata]
  rw [tokenizeGo_step ((w.data ++ (renderItems items).data).length) none _
    ⟨.ident, w⟩ (w.data.getLast?.or none) _
    (nextToken_goodIdent none w _ hg.1 hshape)
    (by show ¬TokType.ident = TokType.eof
        decide)]
  rw [List.length_append]
  rw [tokGo_items items (w.data.getLast?.or none)
    (w.data.length + (renderItems items).data.length) hg.2 (by omega)]

/- ===================  C3: render-then-reparse round trip  =================== -/

theorem intercalate_cons (sep x : String) (xs : List String) :
    String.intercalate sep (x :: xs) = String.intercalate.go x sep xs := rfl

theorem renderItems_append (l1 l2 : List (String × String)) :
    renderItems (l1 ++ l2) = renderItems l1 ++ renderItems l2 := by
  induction l1 with
  | nil => simp [renderItems]
  | cons it l1 ih =>
    obtain ⟨op, t⟩ := it
    simp [renderItems, ih, String.append_assoc]

theorem flatApp_render (f : Flat) (op : String) (g : Flat) :
    renderFlat (flatApp f op g)
      = renderFlat f ++ (" " ++ op ++ " " ++ renderFlat g) := by
  obtain ⟨w, items⟩ := f
  simp [flatApp, renderFlat, renderItems_append, renderItems, String.append_assoc]

theorem goodFlat_flatApp (f : Flat) (op : String) (g : Flat)
    (hf : goodFlatB f = true) (hop : (op == "+" || op == "*") = true)
    (hg : goodFlatB g = true) : goodFlatB (flatApp f op g) = true := by
  obtain ⟨w, items⟩ := f
  obtain ⟨w2, items2⟩ := g
  simp only [goodFlatB, goodItemsB, Bool.and_eq_true, List.all_eq_true] at hf hg ⊢
  refine ⟨hf.1, ?_⟩
  intro it hit
  simp only [flatApp, List.mem_append, List.mem_cons] at hit
  rcases hit with h1 | h2 | h3
  · exact hf.2 it h1
  · subst h2
    exact ⟨hop, hg.1⟩
  · exact hg.2 it h3

mutual

theorem renderFlat_flatten (e : ExprNode) (h : goodAstB e = true) :
    renderLogical e = renderFlat (flatten e) ∧ goodFlatB (flatten e) = true := by
  cases e with
  | word t =>
    refine ⟨?_, ?_⟩
    · show t = t ++ renderItems []
      simp [renderItems]
    · have ht : goodIdentB t = true := by simpa [goodAstB] using h
      simp [flatten, goodFlatB, goodItemsB, ht]
  | blockRef id => simp [goodAstB] at h
  | prox m k l r => simp [goodAstB] at h
  | simulProx k cs => simp [goodAstB] at h
  | logical op cs =>
    have h3 : (op == "+" || op == "*") = true ∧ cs.isEmpty = false
        ∧ allGoodAst cs = true := by
      have := h
      simp only [goodAstB, Bool.and_eq_true, Bool.not_eq_true'] at this
      exact ⟨this.1.1, this.1.2, this.2⟩
    cases cs with
    | nil => simp at h3
    | cons c cs2 =>
      have hgc : goodAstB c = true ∧ allGoodAst cs2 = true := by
        have := h3.2.2
        simp only [allGoodAst, Bool.and_eq_true] at this
        exact this
      have hc := renderFlat_flatten c hgc.1
      have hfold := renderFlat_flattenFold op cs2 (flatten c) hgc.2 h3.1 hc.2
      constructor
      · show String.intercalate (" " ++ op ++ " ")
            (renderLogicalList (c :: cs2)) = _
        rw [show renderLogicalList (c :: cs2)
            = renderLogical c :: renderLogicalList cs2 from rfl]
        rw [intercalate_cons]
        rw [show flatten (.logical op (c :: cs2))
            = flattenFold op (flatten c) cs2 from rfl]
        rw [hfold.1, hc.1]
      · exact hfold.2

theorem renderFlat_flattenFold (op : String) (cs : List ExprNode) (acc : Flat)
    (hcs : allGoodAst cs = true) (hop : (op == "+" || op == "*") = true)
    (hacc : goodFlatB acc = true) :
    renderFlat (flattenFold op acc cs)
        = String.intercalate.go (renderFlat acc) (" " ++ op ++ " ")
            (renderLogicalList cs)
      ∧ goodFlatB (flattenFold op acc cs) = true := by
  cases cs with
  | nil => exact ⟨rfl, hacc⟩
  | cons c cs2 =>
    have hgc : goodAstB c = true ∧ allGoodAst cs2 = true := by
      have := hcs
      simp only [allGoodAst, Bool.and_eq_true] at this
      exact this
    have hc := renderFlat_flatten c hgc.1
    have hacc2 : goodFlatB (flatApp acc op (flatten c)) = true :=
      goodFlat_flatApp acc op (flatten c) hacc hop hc.2
    have ih := renderFlat_flattenFold op cs2 (flatApp acc op (flatten c))
      hgc.2 hop hacc2
    constructor
    · rw [show flattenFold op acc (c :: cs2)
          = flattenFold op (flatApp acc op (flatten c)) cs2 from rfl]
      rw [ih.1]
      rw [show renderLogicalList (c :: cs2)
          = renderLogical c :: renderLogicalList cs2 from rfl]
      rw [show String.intercalate.go (renderFlat acc) (" " ++ op ++ " ")
            (renderLogical c :: renderLogicalList cs2)
          = String.intercalate.go
              (renderFlat acc ++ (" " ++ op ++ " ") ++ renderLogical c)
              (" " ++ op ++ " ") (renderLogicalList cs2) from rfl]
      rw [flatApp_render, hc.1]
      simp [String.append_assoc]
    · exact ih.2

end

theorem renderLogical_pair (op : String) (a b : ExprNode) :
    renderLogical (.logical op [a, b])
      = renderLogical a ++ (" " ++ op ++ " ") ++ renderLogical b := rfl

theorem renderLogical_andFold (ss : List (String × String)) :
    ∀ node : ExprNode, (∀ it ∈ ss, it.1 = "*") →
    renderLogical (andFold node ss) = renderLogical node ++ renderItems ss := by
  induction ss with
  | nil =>
    intro node _
    show renderLogical node = renderLogical node ++ renderItems []
    simp [renderItems]
  | cons it ss ih =>
    obtain ⟨op, t⟩ := it
    intro node h
    have hop : op = "*" := h (op, t) (by simp)
    subst hop
    have h2 := ih (.logical "*" [node, .word t]) (fun x hx => h x (by simp [hx]))
    show renderLogical (andFold (.logical "*" [node, .word t]) ss)
      = renderLogical node ++ renderItems (("*", t) :: ss)
    rw [h2, renderLogical_pair]
    rw [show renderLogical (ExprNode.word t) = t from rfl]
    rw [show renderItems (("*", t) :: ss)
      = " " ++ "*" ++ " " ++ t ++ renderItems ss from rfl]
    simp [String.append_assoc]

theorem itemsToks_head_not_comma (rs : List (String × String)) :
    ∀ tk r2, itemsToks rs ++ [⟨.eof, ""⟩] = tk :: r2 → tk.type ≠ .comma := by
  cases rs with
  | nil =>
    intro tk r2 h
    rw [show itemsToks [] ++ [(⟨.eof, ""⟩ : Tok)] = [⟨.eof, ""⟩] from rfl] at h
    injection h with h1 h2
    rw [← h1]
    decide
  | cons it rs =>
    obtain ⟨op, t⟩ := it
    intro tk r2 h
    rw [show itemsToks ((op, t) :: rs) ++ [(⟨.eof, ""⟩ : Tok)]
      = opTok op :: (⟨.ident, t⟩ :: (itemsToks rs ++ [⟨.eof, ""⟩])) from rfl] at h
    injection h with h1 h2
    rw [← h1]
    unfold opTok
    split
    · decide
    · decide

theorem parsePrimary_ident (fuel : Nat) (t : String) (ts : List Tok) :
    parsePrimary (fuel + 1) (⟨.ident, t⟩ :: ts) = .ok (.word t, ts) := rfl

theorem parseProxExpr_step (fuel : Nat) (ts : List Tok) :
    parseProxExpr (fuel + 1) ts =
      match parsePrimary fuel ts with
      | .error e => .error e
      | .ok (left, ts1) =>
        match ts1 with
        | t1 :: t2 :: rest =>
          if t1.type = .comma && t2.type = .prox then
            match expectTok .comma
                "Expected \",\" after proximity specifier (e.g. 10n,)" rest with
            | .error e => .error e
            | .ok ts2 =>
              match parsePrimary fuel ts2 with
              | .error e => .error e
              | .ok (right, ts3) =>
                match parseProxSpec t2.text with
                | .error e => .error e
                | .ok (mode, k) => .ok (.prox mode k left right, ts3)
          else .ok (left, ts1)
        | _ => .ok (left, ts1) := rfl

theorem parseProxExpr_ident (fuel : Nat) (t : String) (rest : List Tok)
    (h : ∀ tk r2, rest = tk :: r2 → tk.type ≠ .comma) :
    parseProxExpr (fuel + 2) (⟨.ident, t⟩ :: rest) = .ok (.word t, rest) := by
  show parseProxExpr (fuel + 1 + 1) (⟨.ident, t⟩ :: rest) = .ok (.word t, rest)
  rw [parseProxExpr_step (fuel + 1), parsePrimary_ident fuel t rest]
  cases rest with
  | nil => rfl
  | cons tk r2 =>
    cases r2 with
    | nil => rfl
    | cons tk2 r3 =>
      have hne := h tk (tk2 :: r3) rfl
      exact if_neg (by
        simp only [Bool.and_eq_true, decide_eq_true_eq]
        intro hx
        exact hne hx.1)

theorem parseAndExpr_step (fuel : Nat) (ts : List Tok) :
    parseAndExpr (fuel + 1) ts =
      match parseProxExpr fuel ts with
      | .error e => .error e
      | .ok (left, ts1) => parseAndLoop fuel left ts1 := rfl

theorem parseOrExpr_step (fuel : Nat) (ts : List Tok) :
    parseOrExpr (fuel + 1) ts =
      match parseAndExpr fuel ts with
      | .error e => .error e
      | .ok (left, ts1) => parseOrLoop fuel left ts1 := rfl

theorem parseAndLoop_cons_star (fuel : Nat) (node : ExprNode) (ts2 : List Tok) :
    parseAndLoop (fuel + 1) node (⟨.star, "*"⟩ :: ts2) =
      match parseProxExpr fuel ts2 with
      | .error e => .error e
      | .ok (right, ts3) => parseAndLoop fuel (.logical "*" [node, right]) ts3 := rfl

theorem parseAndLoop_cons_other (fuel : Nat) (node : ExprNode) (t : Tok)
    (ts2 : List Tok) (h : t.type ≠ .star) :
    parseAndLoop (fuel + 1) node (t :: ts2) = .ok (node, t :: ts2) :=
  if_neg h

theorem parseOrLoop_cons_plus (fuel : Nat) (node : ExprNode) (ts2 : List Tok) :
    parseOrLoop (fuel + 1) node (⟨.plus, "+"⟩ :: ts2) =
      match parseAndExpr fuel ts2 with
      | .error e => .error e
      | .ok (right, ts3) => parseOrLoop fuel (.logical "+" [node, right]) ts3 := rfl

theorem parseOrLoop_cons_other (fuel : Nat) (node : ExprNode) (t : Tok)
    (ts2 : List Tok) (h : t.type ≠ .plus) :
    parseOrLoop (fuel + 1) node (t :: ts2) = .ok (node, t :: ts2) :=
  if_neg h

theorem parseAndLoop_flat (rs : List (String × String)) :
    ∀ (fuel : Nat) (node : ExprNode), goodItemsB rs = true →
    2 * rs.length + 3 ≤ fuel →
    parseAndLoop fuel node (itemsToks rs ++ [⟨.eof, ""⟩])
      = .ok (andFold node (rs.takeWhile fun it => it.1 == "*"),
             itemsToks (rs.dropWhile fun it => it.1 == "*") ++ [⟨.eof, ""⟩]) := by
  induction rs with
  | nil =>
    intro fuel node _ hf
    obtain ⟨g, rfl⟩ : ∃ g, fuel = g + 1 := ⟨fuel - 1, by omega⟩
    exact parseAndLoop_cons_other g node ⟨.eof, ""⟩ [] (by decide)
  | cons it rs ih =>
    obtain ⟨op, t⟩ := it
    intro fuel node hgood hf
    have hgi : ((op == "+" || op == "*") && goodIdentB t) = true
        ∧ goodItemsB rs = true := by
      simpa [goodItemsB, List.all_cons, Bool.and_eq_true] using hgood
    have hop : op = "+" ∨ op = "*" := by
      have h2 := hgi.1
      simp only [Bool.and_eq_true, Bool.or_eq_true, beq_iff_eq] at h2
      exact h2.1
    simp only [List.length_cons] at hf
    obtain ⟨g, rfl⟩ : ∃ g, fuel = g + 1 := ⟨fuel - 1, by omega⟩
    rcases hop with rfl | rfl
    · exact parseAndLoop_cons_other g node ⟨.plus, "+"⟩
        (⟨.ident, t⟩ :: (itemsToks rs ++ [⟨.eof, ""⟩])) (by decide)
    · obtain ⟨g2, rfl⟩ : ∃ g2, g = g2 + 2 := ⟨g - 2, by omega⟩
      show parseAndLoop (g2 + 2 + 1) node
        (⟨.star, "*"⟩ :: (⟨.ident, t⟩ :: (itemsToks rs ++ [⟨.eof, ""⟩]))) = _
      rw [parseAndLoop_cons_star (g2 + 2) node _]
      rw [parseProxExpr_ident g2 t _ (itemsToks_head_not_comma rs)]
      show parseAndLoop (g2 + 2) (.logical "*" [node, .word t])
        (itemsToks rs ++ [⟨.eof, ""⟩]) = _
      rw [ih (g2 + 2) (.logical "*" [node, .word t]) hgi.2 (by omega)]
      rfl

theorem parseAndExpr_flat (t : String) (rs : List (String × String)) (fuel : Nat)
    (hg : goodItemsB rs = true) (hf : 2 * rs.length + 6 ≤ fuel) :
    parseAndExpr fuel (⟨.ident, t⟩ :: (itemsToks rs ++ [⟨.eof, ""⟩]))
      = .ok (andFold (.word t) (rs.takeWhile fun it => it.1 == "*"),
             itemsToks (rs.dropWhile fun it => it.1 == "*") ++ [⟨.eof, ""⟩]) := by
  obtain ⟨g, rfl⟩ : ∃ g, fuel = g + 2 + 1 := ⟨fuel - 3, by omega⟩
  rw [parseAndExpr_step (g + 2)]
  rw [parseProxExpr_ident g t _ (itemsToks_head_not_comma rs)]
  show parseAndLoop (g + 2) (.word t) (itemsToks rs ++ [⟨.eof, ""⟩]) = _
  exact parseAndLoop_flat rs (g + 2) (.word t) hg (by omega)

theorem dropWhile_star_facts (rs : List (String × String))
    (hg : goodItemsB rs = true) :
    goodItemsB (rs.dropWhile fun it => it.1 == "*") = true
    ∧ ((rs.dropWhile fun it => it.1 == "*") = []
       ∨ ∃ u rs3, (rs.dropWhile fun it => it.1 == "*") = ("+", u) :: rs3) := by
  have hmem : ∀ x ∈ rs.dropWhile (fun it => it.1 == "*"), x ∈ rs :=
    fun x hx => (List.dropWhile_sublist _).subset hx
  have hall := List.all_eq_true.mp hg
  constructor
  · exact List.all_eq_true.mpr (fun x hx => hall x (hmem x hx))
  · cases hd : rs.dropWhile (fun it => it.1 == "*") with
    | nil => exact Or.inl rfl
    | cons it3 rs4 =>
      obtain ⟨op3, u⟩ := it3
      right
      refine ⟨u, rs4, ?_⟩
      have hin : (op3, u) ∈ rs := hmem (op3, u) (by rw [hd]; simp)
      have hgood3 := hall (op3, u) hin
      have hop3 : op3 = "+" ∨ op3 = "*" := by
        simp only [Bool.and_eq_true, Bool.or_eq_true, beq_iff_eq] at hgood3
        exact hgood3.1
      have hns2 : ((op3, u).1 == "*") = false := by
        have hns := List.head?_dropWhile_not (fun it => it.1 == "*") rs
        rw [hd] at hns
        exact hns
      rcases hop3 with rfl | rfl
      · rfl
      · simp at hns2

theorem takeWhile_star_facts (rs : List (String × String)) :
    ∀ it ∈ rs.takeWhile (fun it => it.1 == "*"), it.1 = "*" := by
  intro it hit
  have := List.mem_takeWhile_imp hit
  simpa using this

theorem parseOrLoop_flat (n : Nat) :
    ∀ (rs : List (String × String)) (fuel : Nat) (node : ExprNode),
    rs.length ≤ n → goodItemsB rs = true →
    (rs = [] ∨ ∃ t rs2, rs = ("+", t) :: rs2) →
    2 * rs.length + 7 ≤ fuel →
    ∃ e, parseOrLoop fuel node (itemsToks rs ++ [⟨.eof, ""⟩])
        = .ok (e, [⟨.eof, ""⟩])
      ∧ renderLogical e = renderLogical node ++ renderItems rs := by
  induction n with
  | zero =>
    intro rs fuel node hn _ _ hf
    have hrs : rs = [] := List.length_eq_zero.mp (Nat.le_zero.mp hn)
    subst hrs
    obtain ⟨g, rfl⟩ : ∃ g, fuel = g + 1 := ⟨fuel - 1, by omega⟩
    exact ⟨node, parseOrLoop_cons_other g node ⟨.eof, ""⟩ [] (by decide),
      by simp [renderItems]⟩
  | succ n ih =>
    intro rs fuel node hn hgood hshape hf
    rcases hshape with rfl | ⟨t, rs2, rfl⟩
    · obtain ⟨g, rfl⟩ : ∃ g, fuel = g + 1 := ⟨fuel - 1, by omega⟩
      exact ⟨node, parseOrLoop_cons_other g node ⟨.eof, ""⟩ [] (by decide),
        by simp [renderItems]⟩
    · have hgi : ((("+" : String) == "+" || ("+" : String) == "*")
          && goodIdentB t) = true ∧ goodItemsB rs2 = true := by
        simpa [goodItemsB, List.all_cons, Bool.and_eq_true] using hgood
      simp only [List.length_cons] at hf hn
      obtain ⟨g, rfl⟩ : ∃ g, fuel = g + 1 := ⟨fuel - 1, by omega⟩
      have hfacts := dropWhile_star_facts rs2 hgi.2
      have hsub : (rs2.dropWhile fun it => it.1 == "*").length ≤ rs2.length :=
        (List.dropWhile_sublist _).length_le
      have hAnd := parseAndExpr_flat t rs2 g hgi.2 (by omega)
      obtain ⟨e, he, hre⟩ := ih (rs2.dropWhile fun it => it.1 == "*") g
        (.logical "+" [node, andFold (.word t)
          (rs2.takeWhile fun it => it.1 == "*")])
        (by omega) hfacts.1 hfacts.2 (by omega)
      refine ⟨e, ?_, ?_⟩
      · show parseOrLoop (g + 1) node
          (⟨.plus, "+"⟩ :: (⟨.ident, t⟩ :: (itemsToks rs2 ++ [⟨.eof, ""⟩])))
          = .ok (e, [⟨.eof, ""⟩])
        rw [parseOrLoop_cons_plus g node _, hAnd]
        exact he
      · rw [hre, renderLogical_pair]
        rw [renderLogical_andFold (rs2.takeWhile fun it => it.1 == "*")
          (.word t) (takeWhile_star_facts rs2)]
        rw [show renderLogical (ExprNode.word t) = t from rfl]
        rw [show renderItems (("+", t) :: rs2)
          = " " ++ "+" ++ " " ++ t ++ renderItems rs2 from rfl]
        have hsum : renderItems (rs2.takeWhile fun it => it.1 == "*")
            ++ renderItems (rs2.dropWhile fun it => it.1 == "*")
            = renderItems rs2 := by
          rw [← renderItems_append, List.takeWhile_append_dropWhile]
        rw [← hsum]
        simp [String.append_assoc]

theorem itemsToks_length (rs : List (String × String)) :
    (itemsToks rs).length = 2 * rs.length := by
  induction rs with
  | nil => rfl
  | cons it rs ih =>
    obtain ⟨op, t⟩ := it
    simp only [itemsToks, List.length_cons, ih]
    omega

theorem parseOrExpr_flat (w : String) (items : List (String × String))
    (fuel : Nat) (hgi : goodItemsB items = true)
    (hf : 2 * items.length + 8 ≤ fuel) :
    ∃ e, parseOrExpr fuel (⟨.ident, w⟩ :: (itemsToks items ++ [⟨.eof, ""⟩]))
        = .ok (e, [⟨.eof, ""⟩])
      ∧ renderLogical e = w ++ renderItems items := by
  obtain ⟨g, rfl⟩ : ∃ g, fuel = g + 1 := ⟨fuel - 1, by omega⟩
  have hfacts := dropWhile_star_facts items hgi
  have hsub : (items.dropWhile fun it => it.1 == "*").length ≤ items.length :=
    (List.dropWhile_sublist _).length_le
  have hAnd := parseAndExpr_flat w items g hgi (by omega)
  obtain ⟨e, he, hre⟩ := parseOrLoop_flat
    (items.dropWhile fun it => it.1 == "*").length
    (items.dropWhile fun it => it.1 == "*") g
    (andFold (.word w) (items.takeWhile fun it => it.1 == "*"))
    le_rfl hfacts.1 hfacts.2 (by omega)
  refine ⟨e, ?_, ?_⟩
  · rw [parseOrExpr_step g, hAnd]
    exact he
  · rw [hre]
    rw [renderLogical_andFold (items.takeWhile fun it => it.1 == "*")
      (.word w) (takeWhile_star_facts items)]
    rw [show renderLogical (ExprNode.word w) = w from rfl]
    rw [String.append_assoc, ← renderItems_append,
      List.takeWhile_append_dropWhile]

theorem parseLine_ident_flat (fuel : Nat) (w : String)
    (items : List (String × String)) :
    parseLine fuel (⟨.ident, w⟩ :: (itemsToks items ++ [⟨.eof, ""⟩]))
      = parseLineRest fuel none
          (⟨.ident, w⟩ :: (itemsToks items ++ [⟨.eof, ""⟩])) := by
  cases items with
  | nil => rfl
  | cons it rs =>
    obtain ⟨op, t⟩ := it
    by_cases hop : op = "+"
    · subst hop
      rfl
    · show parseLine fuel (⟨.ident, w⟩
          :: ((if op = "+" then (⟨.plus, "+"⟩ : Tok) else ⟨.star, "*"⟩)
            :: (⟨.ident, t⟩ :: (itemsToks rs ++ [⟨.eof, ""⟩]))))
        = parseLineRest fuel none (⟨.ident, w⟩
          :: ((if op = "+" then (⟨.plus, "+"⟩ : Tok) else ⟨.star, "*"⟩)
            :: (⟨.ident, t⟩ :: (itemsToks rs ++ [⟨.eof, ""⟩]))))
      rw [if_neg hop]
      rfl

theorem parseLineRest_ok (fuel : Nat) (ts : List Tok) (e : ExprNode)
    (h : parseOrExpr fuel ts = .ok (e, [⟨.eof, ""⟩])) :
    parseLineRest fuel none ts = .ok (none, e, none) := by
  unfold parseLineRest parseExpr
  rw [h]
  rfl

/-- C3 counterexample: the claim quantifies over every AST built only from
WordToken leaves and Logical nodes, but a word leaf whose token text
contains an operator character is such an AST and is not a fixed point of
render-then-reparse: WordToken "a+b" renders to "a+b", which re-parses as
the OR of "a" and "b" and then renders to "a + b". -/
theorem claim_C3_counterexample :
    reparseLine (renderLogical (ExprNode.word "a+b"))
        = .ok (none, .logical "+" [.word "a", .word "b"], none)
      ∧ renderLogical (ExprNode.logical "+" [.word "a", .word "b"])
        ≠ renderLogical (ExprNode.word "a+b") := by
  constructor
  · rfl
  · decide

/-- C3 amended: for every AST built from word leaves whose tokens are plain
identifiers (non-empty, no whitespace or operator characters, not starting
with a digit or slash) combined by "+"/"*" logical nodes with at least one
child, tokenizing and re-parsing the AST's logical-form string succeeds and
produces an AST with the identical logical form. -/
theorem claim_C3_amended (ast : ExprNode) (h : goodAstB ast = true) :
    ∃ e, reparseLine (renderLogical ast) = .ok (none, e, none)
      ∧ renderLogical e = renderLogical ast := by
  have hA := renderFlat_flatten ast h
  rcases hF : flatten ast with ⟨w, items⟩
  rw [hF] at hA
  have htok := tokenize_flat (w, items) hA.2
  have hgi : goodItemsB items = true := by
    have h2 := hA.2
    simp only [goodFlatB, Bool.and_eq_true] at h2
    exact h2.2
  rw [hA.1]
  show ∃ e, parseLine (4 * (tokenizeLine (renderFlat (w, items))).length + 8)
      (tokenizeLine (renderFlat (w, items))) = .ok (none, e, none)
    ∧ renderLogical e = renderFlat (w, items)
  rw [htok]
  obtain ⟨e, he, hre⟩ := parseOrExpr_flat w items
    (4 * (⟨.ident, w⟩ :: (itemsToks items ++ [⟨.eof, ""⟩])).length + 8) hgi
    (by simp only [List.length_cons, List.length_append, itemsToks_length,
          List.length_nil]
        omega)
  refine ⟨e, ?_, ?_⟩
  · rw [parseLine_ident_flat]
    exact parseLineRest_ok _ _ e he
  · rw [hre]
    rfl

/-- Witness for the amended C3 at the AST Or(a, And(b, c)). -/
theorem claim_C3_amended_witness :
    goodAstB (ExprNode.logical "+"
        [.word "a", .logical "*" [.word "b", .word "c"]]) = true
    ∧ ∃ e, reparseLine (renderLogical (ExprNode.logical "+"
          [.word "a", .logical "*" [.word "b", .word "c"]]))
        = .ok (none, e, none)
      ∧ renderLogical e = renderLogical (ExprNode.logical "+"
          [.word "a", .logical "*" [.word "b", .word "c"]]) :=
  ⟨by decide, claim_C3_amended _ (by decide)⟩

end CSE
